import Mathlib

/-!
Verification of the NEMSIS dynamic XML ingestion engine (`main_ingest.py`).

The Python source is shallowly embedded: the database connection becomes a
pair of database states (committed / current transaction view), every SQL
statement becomes an explicit state update, possible driver errors are
modelled by an explicit fault environment (`Faults`), and fallible code
returns `Except`.  Filesystem moves (archive / error directory) are modelled
by a small `FS` record.  All definitions are executable.
-/

set_option autoImplicit false

namespace NemsisIngest

/-! ## Name sanitizer -/

/-- Python `str.strip()` whitespace characters. -/
def isSpaceChar (c : Char) : Bool :=
  c == ' ' || c == '\t' || c == '\n' || c == '\r' || c == '\x0b' || c == '\x0c'

/-- Python `s.strip()`. -/
def sTrim (s : String) : String :=
  String.mk (((s.data.dropWhile isSpaceChar).reverse.dropWhile isSpaceChar).reverse)

/-- Lowercase a string (ASCII, like the identifiers handled here). -/
def sLower (s : String) : String := String.mk (s.data.map Char.toLower)

/-- Collapse runs of consecutive underscores into a single underscore.  The
flag records whether the previous kept character was an underscore. -/
def collapseUndAux : Bool → List Char → List Char
  | _, [] => []
  | prevU, c :: rest =>
    if c = '_' then
      if prevU then collapseUndAux true rest
      else '_' :: collapseUndAux true rest
    else c :: collapseUndAux false rest

/-- Trim, then replace every character outside `[A-Za-z0-9_]` by `_`. -/
def sanRepl (s : String) : List Char :=
  (sTrim s).data.map (fun c => if c.isAlpha ∨ c.isDigit ∨ c = '_' then c else '_')

/-- Collapse underscore runs, then prefix `_` when the first character is a
digit. -/
def sanPrefixed (s : String) : List Char :=
  match collapseUndAux false (sanRepl s) with
  | [] => []
  | c :: rest => if c.isDigit then '_' :: c :: rest else c :: rest

/-- Modelled from the spec: `xml_handler._sanitize_name` is imported by
`main_ingest.py` but `xml_handler.py` is not part of the sources; spec section
4.1 defines it as: trim; replace any character outside `[A-Za-z0-9_]` with
`_`; collapse runs of `_`; prefix `_` when the first character is a digit;
lowercase the result. -/
def sanitize_xml_name (s : String) : String :=
  sLower (String.mk (sanPrefixed s))

/-! ## MD5 (model of Python `hashlib.md5(...).hexdigest()`)

Used by `process_xml_file` to shorten over-long foreign-key constraint
names.  Implemented over `Nat` with explicit `% 2^32`. -/

/-- Truncate to a 32-bit value. -/
def u32 (x : Nat) : Nat := x % 4294967296

/-- 32-bit left rotation. -/
def lrot (x c : Nat) : Nat := u32 (x * 2 ^ c + x / 2 ^ (32 - c))

/-- 32-bit bitwise complement. -/
def lnot32 (x : Nat) : Nat := Nat.xor x 4294967295

/-- The 64 MD5 sine-derived constants. -/
def md5K : List Nat :=
  [0xd76aa478, 0xe8c7b756, 0x242070db, 0xc1bdceee,
   0xf57c0faf, 0x4787c62a, 0xa8304613, 0xfd469501,
   0x698098d8, 0x8b44f7af, 0xffff5bb1, 0x895cd7be,
   0x6b901122, 0xfd987193, 0xa679438e, 0x49b40821,
   0xf61e2562, 0xc040b340, 0x265e5a51, 0xe9b6c7aa,
   0xd62f105d, 0x02441453, 0xd8a1e681, 0xe7d3fbc8,
   0x21e1cde6, 0xc33707d6, 0xf4d50d87, 0x455a14ed,
   0xa9e3e905, 0xfcefa3f8, 0x676f02d9, 0x8d2a4c8a,
   0xfffa3942, 0x8771f681, 0x6d9d6122, 0xfde5380c,
   0xa4beea44, 0x4bdecfa9, 0xf6bb4b60, 0xbebfbc70,
   0x289b7ec6, 0xeaa127fa, 0xd4ef3085, 0x04881d05,
   0xd9d4d039, 0xe6db99e5, 0x1fa27cf8, 0xc4ac5665,
   0xf4292244, 0x432aff97, 0xab9423a7, 0xfc93a039,
   0x655b59c3, 0x8f0ccc92, 0xffeff47d, 0x85845dd1,
   0x6fa87e4f, 0xfe2ce6e0, 0xa3014314, 0x4e0811a1,
   0xf7537e82, 0xbd3af235, 0x2ad7d2bb, 0xeb86d391]

/-- The 64 MD5 per-round shift amounts. -/
def md5S : List Nat :=
  [7, 12, 17, 22, 7, 12, 17, 22, 7, 12, 17, 22, 7, 12, 17, 22,
   5, 9, 14, 20, 5, 9, 14, 20, 5, 9, 14, 20, 5, 9, 14, 20,
   4, 11, 16, 23, 4, 11, 16, 23, 4, 11, 16, 23, 4, 11, 16, 23,
   6, 10, 15, 21, 6, 10, 15, 21, 6, 10, 15, 21, 6, 10, 15, 21]

/-- One MD5 round step applied to the running `(a, b, c, d)` quadruple. -/
def md5Step (M : List Nat) (st : Nat × Nat × Nat × Nat) (i : Nat) :
    Nat × Nat × Nat × Nat :=
  let (a, b, c, d) := st
  let fg : Nat × Nat :=
    if i < 16 then (Nat.lor (Nat.land b c) (Nat.land (lnot32 b) d), i)
    else if i < 32 then (Nat.lor (Nat.land d b) (Nat.land (lnot32 d) c), (5 * i + 1) % 16)
    else if i < 48 then (Nat.xor (Nat.xor b c) d, (3 * i + 5) % 16)
    else (Nat.xor c (Nat.lor b (lnot32 d)), (7 * i) % 16)
  let f := u32 (fg.1 + a + md5K.getD i 0 + M.getD fg.2 0)
  (d, u32 (b + lrot f (md5S.getD i 0)), b, c)

/-- Group a byte list into little-endian 32-bit words. -/
def leWords : List Nat → List Nat
  | b0 :: b1 :: b2 :: b3 :: rest =>
    (b0 + 256 * b1 + 65536 * b2 + 16777216 * b3) :: leWords rest
  | _ => []

/-- Process one 64-byte chunk, updating the four MD5 state words. -/
def md5Chunk (h : Nat × Nat × Nat × Nat) (M : List Nat) : Nat × Nat × Nat × Nat :=
  let (h0, h1, h2, h3) := h
  let (a, b, c, d) := (List.range 64).foldl (md5Step M) (h0, h1, h2, h3)
  (u32 (h0 + a), u32 (h1 + b), u32 (h2 + c), u32 (h3 + d))

/-- Fold the MD5 compression function over a padded byte stream; the fuel is
an upper bound on the number of 64-byte chunks, making the recursion
structural. -/
def md5Chunks : Nat → Nat × Nat × Nat × Nat → List Nat → Nat × Nat × Nat × Nat
  | 0, h, _ => h
  | _, h, [] => h
  | fuel + 1, h, b :: rest =>
    md5Chunks fuel (md5Chunk h (leWords ((b :: rest).take 64))) ((b :: rest).drop 64)

/-- UTF-8 encoding of a single character, as byte values. -/
def utf8Bytes (c : Char) : List Nat :=
  let n := c.toNat
  if n < 128 then [n]
  else if n < 2048 then [192 + n / 64, 128 + n % 64]
  else if n < 65536 then [224 + n / 4096, 128 + n / 64 % 64, 128 + n % 64]
  else [240 + n / 262144, 128 + n / 4096 % 64, 128 + n / 64 % 64, 128 + n % 64]

/-- UTF-8 bytes of a string (Python hashes the UTF-8 encoding). -/
def strBytes (s : String) : List Nat :=
  s.data.foldr (fun c acc => utf8Bytes c ++ acc) []

/-- The 8-byte little-endian encoding of the bit length of a message. -/
def md5LenBytes (len : Nat) : List Nat :=
  (List.range 8).map (fun i => 8 * len / 256 ^ i % 256)

/-- Little-endian bytes of one 32-bit word. -/
def wordLE (w : Nat) : List Nat :=
  [w % 256, w / 256 % 256, w / 65536 % 256, w / 16777216 % 256]

/-- One lowercase hexadecimal digit. -/
def hexChar (n : Nat) : Char :=
  "0123456789abcdef".data.getD n '0'

/-- Two-character lowercase hex rendering of a byte. -/
def byteHex (b : Nat) : String :=
  String.mk [hexChar (b / 16 % 16), hexChar (b % 16)]

/-- `hashlib.md5(s.encode()).hexdigest()`: the 32-character lowercase hex
digest of the UTF-8 encoding of `s`. -/
def md5hex (s : String) : String :=
  let msg := strBytes s
  let padded := msg ++ [128] ++ List.replicate ((120 - (msg.length + 1) % 64) % 64) 0
      ++ md5LenBytes msg.length
  let r := md5Chunks padded.length (0x67452301, 0xefcdab89, 0x98badcfe, 0x10325476) padded
  ((wordLE r.1 ++ wordLE r.2.1 ++ wordLE r.2.2.1 ++ wordLE r.2.2.2).map byteHex).foldl
    (fun a b => a ++ b) ""

/-! ## Foreign-key constraint naming (from `process_xml_file`, lines 448-518) -/

/-- Python string slicing `s[:n]` (by code points). -/
def strTake (s : String) (n : Nat) : String := String.mk (s.data.take n)

/-- The ideal constraint name `fk_<child>_<parent>` (line 448). -/
def fkIdeal (child parent : String) : String :=
  "fk_" ++ child ++ "_" ++ parent

/-- The 6-character hash suffix: first 6 hex chars of the MD5 of the ideal
name (lines 456-458). -/
def fkHash (child parent : String) : String :=
  strTake (md5hex (fkIdeal child parent)) 6

/-- The truncated child / parent name parts (lines 469-510): when the parts
plus separator exceed the budget `m`, the child is cut to half the remaining
budget, the parent to what is left, with a final re-cut of the child if the
combination still exceeds `m`. -/
def fkParts (c p : String) (m : Nat) : String × String :=
  if c.length + 1 + p.length > m then
    let avail := m - 1
    let maxChild := avail / 2
    let childPart := if c.length > maxChild then strTake c maxChild else c
    let maxParent := if c.length > maxChild then avail - childPart.length else avail - maxChild
    let parentPart := if p.length > maxParent then strTake p maxParent else p
    let childPart2 :=
      if childPart.length + 1 + parentPart.length > m then
        strTake childPart (avail - parentPart.length - 1)
      else childPart
    (childPart2, parentPart)
  else (c, p)

/-- The absolute final truncation to 63 characters (lines 516-518). -/
def fkFinal (name : String) : String :=
  if name.length > 63 then strTake name 63 else name

/-- The foreign-key constraint name computed by `process_xml_file`
(lines 448-518) for a `(child, parent)` pair of sanitized table
identifiers. -/
def fkConstraintName (child parent : String) : String :=
  if (fkIdeal child parent).length ≤ 63 then fkIdeal child parent
  else
    fkFinal ("fk_" ++ (fkParts child parent (63 - 3 - (fkHash child parent).length - 1)).1
      ++ "_" ++ (fkParts child parent (63 - 3 - (fkHash child parent).length - 1)).2
      ++ "_" ++ fkHash child parent)

/-- The truncation scheme as worded by the spec (section 4.6): child gets
`(B-1)/2` of budget `B`, the parent the remainder. -/
def fkPartsSpec (c p : String) (m : Nat) : String × String :=
  (strTake c ((m - 1) / 2), strTake p (m - 1 - (m - 1) / 2))

/-- The constraint-name algorithm as worded by the spec (section 4.6): the
ideal name if it fits in 63 bytes, else `fk_<child2>_<parent2>_<hash>` with
`hash` the first 6 hex chars of the MD5 of the ideal name, parts truncated
by an even split of the budget, and a final safety truncation. -/
def fkConstraintNameSpec (child parent : String) : String :=
  if (fkIdeal child parent).length ≤ 63 then fkIdeal child parent
  else
    fkFinal ("fk_"
      ++ (fkPartsSpec child parent (63 - 3 - (fkHash child parent).length - 1)).1
      ++ "_" ++ (fkPartsSpec child parent (63 - 3 - (fkHash child parent).length - 1)).2
      ++ "_" ++ fkHash child parent)

/-! ## Data model -/

/-- One parsed XML element, as produced by `parse_xml_file` and consumed by
`process_xml_file` (spec section 3).  Optional string fields model Python
values that may be `None`. -/
structure Element where
  element_id : String
  parent_element_id : Option String
  pcr_uuid_context : Option String
  element_tag : String
  table_suggestion : String
  parent_table_suggestion : Option String
  attributes : List (String × String)
  text_content : Option String
deriving DecidableEq, Repr

/-- A database row: an association list from column name to nullable text. -/
abbrev Row := List (String × Option String)

/-- One table of the configured schema: column names, rows, optional comment. -/
structure Table where
  columns : List String
  rows : List Row
  comment : Option String
deriving DecidableEq, Repr

/-- A foreign-key constraint as recorded in the catalog. -/
structure FKConstraint where
  name : String
  childTable : String
  childColumn : String
  parentTable : String
  parentColumn : String
  onDeleteCascade : Bool
deriving DecidableEq, Repr

/-- One `XMLFilesProcessed` audit row (only the fields the claims mention). -/
structure AuditRow where
  fileName : String
  status : String
deriving DecidableEq, Repr

/-- The visible state of the configured schema. -/
structure DBState where
  tables : List (String × Table)
  constraints : List FKConstraint
  audit : List AuditRow
deriving DecidableEq, Repr

/-- A psycopg2 connection: the committed database plus the current
transaction's view.  `commit` publishes `current`; `rollback` restores
`committed`. -/
structure Conn where
  committed : DBState
  current : DBState
deriving DecidableEq, Repr

/-- Trace of executed SQL statements (successful executions only; a faulting
statement aborts before taking effect). -/
inductive Stmt where
  | delete (table uuid : String)
  | createTable (table : String)
  | addColumn (table col : String)
  | insertRow (table elementId : String)
  | fkCheck (child name : String)
  | fkAdd (child name : String)
  | commit
  | rollback
  | auditInsert (status : String)
deriving DecidableEq, Repr

/-- Injected driver faults: each list names the statements whose execution
raises `psycopg2.Error`.  Statements not listed execute normally. -/
structure Faults where
  enumTablesFault : Bool
  deleteFaults : List (String × String)
  createFaults : List String
  addColumnFaults : List (String × String)
  insertFaults : List String
  fkCheckFaults : List (String × String)
  fkAlterFaults : List (String × String)
deriving DecidableEq, Repr

/-- The fault environment in which no statement ever fails. -/
def noFaults : Faults :=
  { enumTablesFault := false, deleteFaults := [], createFaults := [],
    addColumnFaults := [], insertFaults := [], fkCheckFaults := [], fkAlterFaults := [] }

/-- Whole interpreter state: connection, the module-level
`_table_column_cache`, and the statement trace. -/
structure St where
  conn : Conn
  cache : List (String × List String)
  trace : List Stmt
deriving DecidableEq, Repr

/-- Filesystem state: whether the input file is still at its original path,
and the contents of the archive and error directories. -/
structure FS where
  inputPresent : Bool
  archive : List String
  errorFiles : List String
deriving DecidableEq, Repr

/-! ## Association-list helpers -/

/-- First value bound to `k`, if any. -/
def assocFind {α : Type} (l : List (String × α)) (k : String) : Option α :=
  match l with
  | [] => none
  | (k1, v) :: rest => if k1 = k then some v else assocFind rest k

/-- Bind `k` to `v`, overwriting in place like a Python dict. -/
def assocSet {α : Type} (l : List (String × α)) (k : String) (v : α) :
    List (String × α) :=
  match l with
  | [] => [(k, v)]
  | (k1, v1) :: rest => if k1 = k then (k, v) :: rest else (k1, v1) :: assocSet rest k v

/-- `bool(s)` for an optional Python string: `None` and `""` are falsy. -/
def optTruthy : Option String → Bool
  | none => false
  | some s => !(s == "")

/-- The `pcr_uuid_context` value stored in a row, flattened. -/
def rowPcr (r : Row) : Option String :=
  match assocFind r "pcr_uuid_context" with
  | some v => v
  | none => none

/-! ## Database primitives -/

/-- `CREATE TABLE IF NOT EXISTS` (together with the optional
`COMMENT ON TABLE` issued in the same guarded block). -/
def dbCreateTable (db : DBState) (t : String) (cols : List String)
    (cmt : Option String) : DBState :=
  match assocFind db.tables t with
  | some _ => db
  | none => { db with tables := db.tables ++ [(t, ⟨cols, [], cmt⟩)] }

/-- Apply `g` to table `t` if it exists. -/
def dbUpdateTable (db : DBState) (t : String) (g : Table → Table) : DBState :=
  { db with tables := db.tables.map (fun nt => if nt.1 = t then (nt.1, g nt.2) else nt) }

/-- `ALTER TABLE .. ADD COLUMN`: errors (`none`) when the table is missing or
the column already exists. -/
def dbAddColumn (db : DBState) (t c : String) : Option DBState :=
  match assocFind db.tables t with
  | none => none
  | some tbl =>
    if c ∈ tbl.columns then none
    else some (dbUpdateTable db t (fun tbl1 => { tbl1 with columns := tbl1.columns ++ [c] }))

/-- `DELETE FROM t WHERE pcr_uuid_context = u`, with the row count. -/
def dbDeleteRows (db : DBState) (t u : String) : DBState × Nat :=
  match assocFind db.tables t with
  | none => (db, 0)
  | some tbl =>
    let kept := tbl.rows.filter (fun r => !(rowPcr r == some u))
    (dbUpdateTable db t (fun tbl1 => { tbl1 with rows := kept }),
     tbl.rows.length - kept.length)

/-- Whether inserting `row` would violate the `element_id` primary key. -/
def pkViolation (tbl : Table) (row : Row) : Bool :=
  "element_id" ∈ tbl.columns &&
    (match assocFind row "element_id" with
     | some (some v) =>
       tbl.rows.any (fun r => assocFind r "element_id" == some (some v))
     | _ => false)

/-- `INSERT INTO t (..) VALUES (..)`: errors when the table is missing or the
`element_id` primary key is violated. -/
def dbInsertRow (db : DBState) (t : String) (row : Row) : Option DBState :=
  match assocFind db.tables t with
  | none => none
  | some tbl =>
    if pkViolation tbl row then none
    else some (dbUpdateTable db t (fun tbl1 => { tbl1 with rows := tbl1.rows ++ [row] }))

/-- `ALTER TABLE .. ADD CONSTRAINT .. FOREIGN KEY ..`: errors when either
table is missing or a constraint of that name already exists on the child. -/
def dbAddConstraint (db : DBState) (cst : FKConstraint) : Option DBState :=
  match assocFind db.tables cst.childTable, assocFind db.tables cst.parentTable with
  | some _, some _ =>
    if db.constraints.any (fun c => c.name == cst.name && c.childTable == cst.childTable)
    then none
    else some { db with constraints := db.constraints ++ [cst] }
  | _, _ => none

/-- `conn.rollback()`. -/
def rollbackConn (c : Conn) : Conn := { c with current := c.committed }

/-- Append one statement to the trace. -/
def emit (st : St) (s : Stmt) : St := { st with trace := st.trace ++ [s] }

/-! ## Schema cache (`get_table_columns`, lines 147-166) -/

/-- The five common columns of every dynamic table. -/
def commonColsList : List String :=
  ["element_id", "parent_element_id", "pcr_uuid_context", "original_tag_name",
   "text_content"]

/-- `get_table_columns`: first consult the module cache, else read
`information_schema.columns` for the sanitized, lowercased table name and
memoize.  Never raises; a missing table yields the empty set. -/
def getTableColumns (st : St) (tableName : String) : List String × St :=
  let safe := sanitize_xml_name tableName
  match assocFind st.cache safe with
  | some cols => (cols, st)
  | none =>
    let cols :=
      match assocFind st.conn.current.tables (sLower safe) with
      | some tbl => tbl.columns
      | none => []
    (cols, { st with cache := assocSet st.cache safe cols })

/-! ## Schema reconciler (`ensure_table_and_columns`, lines 169-246) -/

/-- Attribute-derived columns for a fresh `CREATE TABLE`: one `TEXT` column
per sanitized lowercased attribute name not colliding with a common column
or an earlier attribute. -/
def attrCreateCols (attrs : List (String × String)) (seen : List String) :
    List String :=
  match attrs with
  | [] => []
  | (k, _) :: rest =>
    let s := sLower (sanitize_xml_name k)
    if s ∈ seen then attrCreateCols rest seen
    else s :: attrCreateCols rest (s :: seen)

/-- Sanitized attribute names that are in neither the current column set nor
the common set (the `missing_attr_cols` loop input, determinized to first
occurrence order). -/
def missingAttrCols (attrs : List (String × String)) (cur : List String) :
    List String :=
  match attrs with
  | [] => []
  | (k, _) :: rest =>
    let s := sLower (sanitize_xml_name k)
    if s ∈ cur ∨ s ∈ commonColsList then missingAttrCols rest cur
    else s :: missingAttrCols rest (s :: cur)

/-- Record a successfully added column in the cached column set. -/
def cacheAdd (cache : List (String × List String)) (key c : String) :
    List (String × List String) :=
  match assocFind cache key with
  | some cs => assocSet cache key (cs ++ [c])
  | none => cache

/-- The `ALTER TABLE .. ADD COLUMN` loop.  A failing `ALTER` is caught inside
the function: it prints, rolls back the connection and continues with the
next column (source lines 234-244). -/
def alterLoop (f : Faults) (tname key : String) : List String → St → St
  | [], st => st
  | c :: rest, st =>
    if (tname, c) ∈ f.addColumnFaults then
      alterLoop f tname key rest
        { st with
          conn := rollbackConn st.conn,
          trace := st.trace ++ [.rollback] }
    else
      match dbAddColumn st.conn.current tname c with
      | none =>
        alterLoop f tname key rest
          { st with
            conn := rollbackConn st.conn,
            trace := st.trace ++ [.rollback] }
      | some db1 =>
        alterLoop f tname key rest
          { st with
            conn := { st.conn with current := db1 },
            cache := cacheAdd st.cache key c,
            trace := st.trace ++ [.addColumn tname c] }

/-- The `CREATE TABLE IF NOT EXISTS` block of `ensure_table_and_columns`
(lines 191-223), entered when the observed column set is empty: on a fault
the error is caught and signalled by `none`; otherwise the table is created
(with the optional `element_path` comment) and the cache populated. -/
def ensureCreate (f : Faults) (st1 : St) (raw tname : String)
    (attrs : List (String × String)) (existingCols : List String) :
    Option St :=
  if existingCols.isEmpty then
    if tname ∈ f.createFaults then none
    else
      some { st1 with
        conn := { st1.conn with
          current := dbCreateTable st1.conn.current tname
            (commonColsList ++ attrCreateCols attrs commonColsList)
            (match attrs.find? (fun kv => kv.1 == "element_path") with
             | some kv => some kv.2
             | none => none) },
        cache := assocSet st1.cache raw
          (commonColsList ++ attrCreateCols attrs commonColsList),
        trace := st1.trace ++ [.createTable tname] }
  else some st1

/-- `ensure_table_and_columns`.  Returns `(none, [])` when the suggestion
sanitizes to the empty string or the `CREATE TABLE` block fails (the failure
is caught inside, the connection rolled back).  Otherwise returns the
sanitized table name and the cached column set after reconciliation. -/
def ensureTableAndColumns (f : Faults) (st : St) (suggestion : String)
    (attrs : List (String × String)) : (Option String × List String) × St :=
  let raw := sanitize_xml_name suggestion
  if raw = "" then ((none, []), st)
  else
    let p1 := getTableColumns st raw
    match ensureCreate f p1.2 raw (sLower raw) attrs p1.1 with
    | none =>
      ((none, []),
       { p1.2 with
         conn := rollbackConn p1.2.conn,
         trace := p1.2.trace ++ [.rollback] })
    | some st2 =>
      let p2 := getTableColumns st2 raw
      let st3 := alterLoop f (sLower raw) raw (missingAttrCols attrs p2.1) p2.2
      let p3 := getTableColumns st3 raw
      ((some raw, p3.1), p3.2)

/-! ## PCR overwriter (`delete_existing_pcr_data`, lines 249-291) -/

/-- Predicate selecting the candidate tables of the overwrite query. -/
def dynTableFilter (n : String) : Bool :=
  !(("pg_".data).isPrefixOf n.data) && !(n == "SchemaVersions") && !(n == "XMLFilesProcessed")

/-- The per-table delete loop: tables whose (sanitized) column set contains
`pcr_uuid_context` get a `DELETE`; a driver error re-raises. -/
def deleteLoop (f : Faults) (u : String) : List String → St → Except St St
  | [], st => .ok st
  | n :: rest, st =>
    let p := getTableColumns st n
    if "pcr_uuid_context" ∈ p.1 then
      if (n, u) ∈ f.deleteFaults then .error p.2
      else
        let d := dbDeleteRows p.2.conn.current n u
        deleteLoop f u rest
          { p.2 with
            conn := { p.2.conn with current := d.1 },
            trace := p.2.trace ++ [.delete n u] }
    else deleteLoop f u rest p.2

/-- `delete_existing_pcr_data`: immediately returns on a falsy uuid;
otherwise enumerates the base tables of the schema excluding `pg_%`,
`SchemaVersions` and `XMLFilesProcessed`, and deletes matching rows.  Driver
errors propagate. -/
def deleteExistingPcrData (f : Faults) (st : St) (pcrUuid : Option String) :
    Except St St :=
  if optTruthy pcrUuid = false then .ok st
  else
    match pcrUuid with
    | none => .ok st
    | some u =>
      if f.enumTablesFault then .error st
      else
        let names := (st.conn.current.tables.map Prod.fst).filter dynTableFilter
        deleteLoop f u names st

/-! ## Row writer and pipeline (`process_xml_file`, lines 294-626) -/

/-- Distinct non-falsy `pcr_uuid_context` values of a file, in first-seen
order (determinizing the Python set). -/
def collectUuids : List Element → List String → List String
  | [], acc => acc
  | el :: rest, acc =>
    match el.pcr_uuid_context with
    | some u => if u = "" ∨ u ∈ acc then collectUuids rest acc
                else collectUuids rest (acc ++ [u])
    | none => collectUuids rest acc

/-- Loop of `delete_existing_pcr_data` over the file's uuids. -/
def deletePhase (f : Faults) : List String → St → Except St St
  | [], st => .ok st
  | u :: rest, st =>
    match deleteExistingPcrData f st (some u) with
    | .error st1 => .error st1
    | .ok st1 => deletePhase f rest st1

/-- The `insert_data` dict: common fields first, then one entry per
attribute keyed by the sanitized lowercased name; a later attribute
overwrites an earlier entry with the same key. -/
def writerRowAux : List (String × String) → Row → Row
  | [], r => r
  | (k, v) :: rest, r =>
    writerRowAux rest (assocSet r (sLower (sanitize_xml_name k)) (some v))

/-- The five common entries of `insert_data` (lines 404-410). -/
def writerBase (el : Element) : Row :=
  [("element_id", some el.element_id),
   ("parent_element_id", el.parent_element_id),
   ("pcr_uuid_context", el.pcr_uuid_context),
   ("original_tag_name", some el.element_tag),
   ("text_content", el.text_content)]

/-- Build the full `insert_data` row of an element. -/
def writerRow (el : Element) : Row :=
  writerRowAux el.attributes (writerBase el)

/-- Project a row onto the table's actual column set (`filtered_insert_data`):
keys whose lowercased form is not a column are silently dropped. -/
def filterRow (row : Row) (cols : List String) : Row :=
  row.filter (fun kv => sLower kv.1 ∈ cols)

/-- Add a `(child, parent)` pair to the accumulated set (first-seen order). -/
def fksInsert (l : List (String × String)) (x : String × String) :
    List (String × String) :=
  if x ∈ l then l else l ++ [x]

/-- Per-element loop: reconcile the schema, record the foreign-key pair,
build / project / insert the row.  Any DB error propagates. -/
def insertLoop (f : Faults) :
    List Element → St → List (String × String) →
    Except St (St × List (String × String))
  | [], st, fks => .ok (st, fks)
  | el :: rest, st, fks =>
    let e := ensureTableAndColumns f st el.table_suggestion el.attributes
    match e.1.1 with
    | none => .error e.2
    | some raw =>
      if e.1.2.isEmpty then .error e.2
      else
        let fks1 :=
          if optTruthy el.parent_table_suggestion && optTruthy el.parent_element_id then
            let sp := sanitize_xml_name (el.parent_table_suggestion.getD "")
            if sp = "" then fks else fksInsert fks (raw, sp)
          else fks
        let filtered := filterRow (writerRow el) e.1.2
        if el.element_id ∈ f.insertFaults then .error e.2
        else
          match dbInsertRow e.2.conn.current (sLower raw) filtered with
          | none => .error e.2
          | some db1 =>
            insertLoop f rest
              { e.2 with
                conn := { e.2.conn with current := db1 },
                trace := e.2.trace ++ [.insertRow (sLower raw) el.element_id] }
              fks1

/-- The constraint the planner creates for a `(child, parent)` pair. -/
def plannerConstraint (child parent : String) : FKConstraint :=
  { name := fkConstraintName child parent,
    childTable := sLower child, childColumn := "parent_element_id",
    parentTable := sLower parent, parentColumn := "element_id",
    onDeleteCascade := true }

/-- Foreign-key creation phase: for each accumulated pair, check
`information_schema.table_constraints` for the computed name on the child
table and issue `ADD CONSTRAINT` only when absent.  Errors propagate. -/
def fkPhase (f : Faults) : List (String × String) → St → Except St St
  | [], st => .ok st
  | (child, parent) :: rest, st =>
    let childL := sLower child
    let parentL := sLower parent
    let name := fkConstraintName child parent
    if (childL, parentL) ∈ f.fkCheckFaults then .error st
    else
      let st1 := emit st (.fkCheck childL name)
      let existing := st1.conn.current.constraints.filter
        (fun c => c.name == name && c.childTable == childL)
      if existing.isEmpty then
        if (childL, parentL) ∈ f.fkAlterFaults then .error st1
        else
          match dbAddConstraint st1.conn.current (plannerConstraint child parent) with
          | none => .error st1
          | some db1 =>
            fkPhase f rest
              { st1 with
                conn := { st1.conn with current := db1 },
                trace := st1.trace ++ [.fkAdd childL name] }
      else fkPhase f rest st1

/-- The transactional body of `process_xml_file`: overwrite deletes, the
per-element insert loop, then foreign-key creation. -/
def runPhases (f : Faults) (elements : List Element) (uuids : List String)
    (st : St) : Except St St :=
  match deletePhase f uuids st with
  | .error st1 => .error st1
  | .ok st1 =>
    match insertLoop f elements st1 [] with
    | .error st2 => .error st2
    | .ok (st2, fks) => fkPhase f fks st2

/-- `log_processed_file`: inserts one audit row and commits; on a DB error it
rolls back (only that write, at every call site) and returns `False`.  It
never propagates the error. -/
def logProcessedFile (auditFault : Bool) (st : St) (fileName status : String) :
    Bool × St :=
  if auditFault then
    (false,
     { st with
       conn := rollbackConn st.conn,
       trace := st.trace ++ [.rollback] })
  else
    let cur := st.conn.current
    let cur1 := { cur with audit := cur.audit ++ [⟨fileName, status⟩] }
    (true,
     { st with
       conn := { committed := cur1, current := cur1 },
       trace := st.trace ++ [.auditInsert status, .commit] })

/-- `os.path.splitext`: split off the last extension, ignoring leading dots. -/
def splitExt (s : String) : String × String :=
  let cs := s.data
  let lead := cs.takeWhile (fun c => c == '.')
  let rest := cs.drop lead.length
  let tail := rest.reverse.takeWhile (fun c => !(c == '.'))
  if tail.length = rest.length then (s, "")
  else
    let baseLen := lead.length + (rest.length - tail.length - 1)
    (String.mk (cs.take baseLen), String.mk (cs.drop baseLen))

/-- The uniquified name used when the error directory already holds a file
of the same name: `<name>_error_<timestamp><ext>`. -/
def errorName (name ts : String) : String :=
  let pr := splitExt name
  pr.1 ++ "_error_" ++ ts ++ pr.2

/-- `move_to_error_directory`. -/
def moveToError (name ts : String) (fs : FS) : FS :=
  if fs.inputPresent then
    let target := if name ∈ fs.errorFiles then errorName name ts else name
    { fs with inputPresent := false, errorFiles := fs.errorFiles ++ [target] }
  else fs

/-- `archive_file`: a colliding archive name is overwritten. -/
def archiveFile (name : String) (fs : FS) : FS :=
  if fs.inputPresent then
    { fs with
      inputPresent := false,
      archive := if name ∈ fs.archive then fs.archive else fs.archive ++ [name] }
  else fs

/-- Clear the module-level `_table_column_cache` (the `finally` block). -/
def clearCache (st : St) : St := { st with cache := [] }

/-- `process_xml_file`, from the point where the file has been read and
parsed: the empty-parse guard, the transactional phases, commit or rollback,
the audit row (written by `log_processed_file`, whose result is ignored) and
the archive / quarantine move.  Returns the success flag, the final
interpreter state and the final filesystem. -/
def processXmlFile (f : Faults) (auditFault : Bool) (st : St) (fs : FS)
    (name : String) (elements : List Element) (ts : String) :
    Bool × St × FS :=
  if elements.isEmpty then
    let lg := logProcessedFile auditFault st name "Error_Parsing_Empty"
    (false, clearCache lg.2, moveToError name ts fs)
  else
    let uuids := collectUuids elements []
    match runPhases f elements uuids st with
    | .error st1 =>
      let st2 :=
        { st1 with
          conn := rollbackConn st1.conn,
          trace := st1.trace ++ [.rollback] }
      let lg := logProcessedFile auditFault st2 name "Error_Staging_Tx_PG_V4"
      (false, clearCache lg.2, moveToError name ts fs)
    | .ok st1 =>
      let st2 :=
        { st1 with
          conn := { st1.conn with committed := st1.conn.current },
          trace := st1.trace ++ [.commit] }
      let lg := logProcessedFile auditFault st2 name "Staged_Dynamic_PG_V4"
      (true, clearCache lg.2, archiveFile name fs)

/-- The state carried by either branch of an `Except St St` result. -/
def exSt : Except St St → St
  | .ok s => s
  | .error s => s

/-- The state carried by either branch of the insert loop result. -/
def exStP : Except St (St × List (String × String)) → St
  | .ok p => p.1
  | .error s => s

/-! ## Spec-side description of the writer row (spec section 4.5) -/

/-- The value of the last attribute (in iteration order) whose sanitized
lowercased name is `k`: later attributes win a collision. -/
def lastAttrValue : List (String × String) → String → Option String
  | [], _ => none
  | (a, v) :: rest, k =>
    match lastAttrValue rest k with
    | some w => some w
    | none => if sLower (sanitize_xml_name a) = k then some v else none

/-- The value a common field contributes under key `k`, when `k` is one of
the five common column names. -/
def commonValue (el : Element) (k : String) : Option (Option String) :=
  if k = "element_id" then some (some el.element_id)
  else if k = "parent_element_id" then some el.parent_element_id
  else if k = "pcr_uuid_context" then some el.pcr_uuid_context
  else if k = "original_tag_name" then some (some el.element_tag)
  else if k = "text_content" then some el.text_content
  else none

/-! ## Catalog-accuracy notions used by the invariant claims -/

/-- The column set `information_schema.columns` reports for the sanitized
name `raw` (its lowercased form is the stored table name). -/
def actualCols (db : DBState) (raw : String) : List String :=
  match assocFind db.tables (sLower raw) with
  | some tbl => tbl.columns
  | none => []

/-- Every entry of the schema cache agrees with the catalog of the current
transaction (holds at file start, where the cache is empty, and is
preserved while no DDL is rolled back). -/
def cacheAccurate (st : St) : Prop :=
  ∀ e ∈ st.cache, e.2 = actualCols st.conn.current e.1

instance (st : St) : Decidable (cacheAccurate st) := by
  unfold cacheAccurate
  infer_instance

/-- Stored table names are fixed points of sanitize-then-lowercase, as all
names the ingester itself creates are. -/
def namesSane (db : DBState) : Prop :=
  ∀ e ∈ db.tables, sLower (sanitize_xml_name e.1) = e.1

instance (db : DBState) : Decidable (namesSane db) := by
  unfold namesSane
  infer_instance

/-- The schema cache only holds lowercase-stable keys, each at most once
(all keys the program inserts are sanitizer outputs, via `assocSet`). -/
def cacheKeysOK (st : St) : Prop :=
  (∀ e ∈ st.cache, sLower e.1 = e.1) ∧ (st.cache.map Prod.fst).Nodup

instance (st : St) : Decidable (cacheKeysOK st) := by
  unfold cacheKeysOK
  exact instDecidableAnd

/-- Drop the rows carrying `pcr_uuid_context = u`. -/
def purgeRows (u : String) (tbl : Table) : Table :=
  { tbl with rows := tbl.rows.filter (fun r => !(rowPcr r == some u)) }

/-- Classification of traced statements. -/
def isDeleteStmt : Stmt → Bool
  | .delete _ _ => true
  | _ => false

/-- DDL and DML statements of the per-element work (no transaction
boundaries, no deletes, no audit writes). -/
def isWorkStmt : Stmt → Bool
  | .createTable _ => true
  | .addColumn _ _ => true
  | .insertRow _ _ => true
  | .fkCheck _ _ => true
  | .fkAdd _ _ => true
  | _ => false

/-- Schema-reconciliation statements. -/
def isSchemaStmt : Stmt → Bool
  | .createTable _ => true
  | .addColumn _ _ => true
  | _ => false

/-- No table of the schema has an empty column set (true of every table the
ingester creates, and of real PostgreSQL tables). -/
def noEmptyTables (db : DBState) : Prop :=
  ∀ e ∈ db.tables, e.2.columns ≠ []

instance (db : DBState) : Decidable (noEmptyTables db) := by
  unfold noEmptyTables
  infer_instance

/-- The set of `(child_table, parent_table)` pairs the writer accumulates
over a file (lines 389-401): one pair per element having both a
`parent_element_id` and a parent table suggestion that sanitizes non-empty,
keyed by the sanitized table names, deduplicated in first-seen order. -/
def fkPairsSpec : List Element → List (String × String) → List (String × String)
  | [], acc => acc
  | el :: rest, acc =>
    fkPairsSpec rest
      (if optTruthy el.parent_table_suggestion && optTruthy el.parent_element_id then
        let sp := sanitize_xml_name (el.parent_table_suggestion.getD "")
        if sp = "" then acc
        else fksInsert acc (sanitize_xml_name el.table_suggestion, sp)
       else acc)

/-- No two constraints of the catalogue share a `(name, child table)` pair
(what `information_schema.table_constraints` lookups by name assume). -/
def wfConstraints (l : List FKConstraint) : Prop :=
  (l.map (fun c => (c.name, c.childTable))).Nodup

instance (l : List FKConstraint) : Decidable (wfConstraints l) := by
  unfold wfConstraints
  infer_instance

/-! ## Concrete instances used by witnesses and counterexamples -/

/-- The empty database. -/
def emptyDB : DBState := { tables := [], constraints := [], audit := [] }

/-- A fresh interpreter state over an empty database. -/
def emptySt : St :=
  { conn := { committed := emptyDB, current := emptyDB }, cache := [], trace := [] }

/-- A filesystem whose input file is present and whose directories are empty. -/
def emptyFS : FS := { inputPresent := true, archive := [], errorFiles := [] }

/-- A 30-character child table name (longer than the 63-byte budget allows
together with either parent below). -/
def c5child : String := "cccccccccccccccccccccccccccccc"

/-- First parent table name: `fk_<child>_<parent>` is 64 bytes, so the name
is truncated and hashed. -/
def c5p1 : String := "pppppppppppppppppppppppppp1033"

/-- Second parent table name: same truncation, and the first 6 hex chars of
the two MD5 digests coincide, so both pairs get the same constraint name. -/
def c5p2 : String := "pppppppppppppppppppppppppp2157"

/-- A file with two parent elements and two children of the same child
table, one per parent: the accumulated pairs are `(c5child, c5p1)` and
`(c5child, c5p2)`. -/
def c5elements : List Element :=
  [{ element_id := "p1", parent_element_id := none,
     pcr_uuid_context := some "u", element_tag := "P",
     table_suggestion := c5p1, parent_table_suggestion := none,
     attributes := [], text_content := none },
   { element_id := "p2", parent_element_id := none,
     pcr_uuid_context := some "u", element_tag := "P",
     table_suggestion := c5p2, parent_table_suggestion := none,
     attributes := [], text_content := none },
   { element_id := "c1", parent_element_id := some "p1",
     pcr_uuid_context := some "u", element_tag := "C",
     table_suggestion := c5child, parent_table_suggestion := some c5p1,
     attributes := [], text_content := none },
   { element_id := "c2", parent_element_id := some "p2",
     pcr_uuid_context := some "u", element_tag := "C",
     table_suggestion := c5child, parent_table_suggestion := some c5p2,
     attributes := [], text_content := none }]

/-- A two-element file (parent table `p`, child table `c`) whose single
accumulated pair has a short, unique constraint name. -/
def c5wels : List Element :=
  [{ element_id := "p1", parent_element_id := none,
     pcr_uuid_context := some "w", element_tag := "P",
     table_suggestion := "p", parent_table_suggestion := none,
     attributes := [], text_content := none },
   { element_id := "c1", parent_element_id := some "p1",
     pcr_uuid_context := some "w", element_tag := "C",
     table_suggestion := "c", parent_table_suggestion := some "p",
     attributes := [], text_content := none }]

/-- A pre-existing dynamic table `t` holding one previously ingested row of
the PCR `p`. -/
def c1tbl : Table :=
  { columns := commonColsList,
    rows := [[("element_id", some "old1"), ("pcr_uuid_context", some "p")]],
    comment := none }

/-- Database and state around `c1tbl`. -/
def c1db : DBState := { tables := [("t", c1tbl)], constraints := [], audit := [] }

def c1st : St :=
  { conn := { committed := c1db, current := c1db }, cache := [], trace := [] }

/-- The driver raises on `ALTER TABLE t ADD COLUMN a`. -/
def c1faults : Faults :=
  { noFaults with addColumnFaults := [("t", "a")] }

/-- First element of the file: no attributes, inserted before the fault. -/
def c1e1 : Element :=
  { element_id := "e1", parent_element_id := none,
    pcr_uuid_context := some "p", element_tag := "T",
    table_suggestion := "t", parent_table_suggestion := none,
    attributes := [], text_content := some "x" }

/-- Second element: its attribute `a` needs the failing `ALTER`. -/
def c1e2 : Element :=
  { element_id := "e2", parent_element_id := none,
    pcr_uuid_context := some "p", element_tag := "T",
    table_suggestion := "t", parent_table_suggestion := none,
    attributes := [("a", "1")], text_content := none }

/-- A pre-existing dynamic table `u` without the column for attribute `b`. -/
def c3tbl : Table := { columns := commonColsList, rows := [], comment := none }

def c3db : DBState := { tables := [("u", c3tbl)], constraints := [], audit := [] }

def c3st : St :=
  { conn := { committed := c3db, current := c3db }, cache := [], trace := [] }

/-- The driver raises on `ALTER TABLE u ADD COLUMN b`. -/
def c3faults : Faults :=
  { noFaults with addColumnFaults := [("u", "b")] }

/-- One element whose attribute `b` needs the failing `ALTER`. -/
def c3el : Element :=
  { element_id := "x1", parent_element_id := none,
    pcr_uuid_context := some "q", element_tag := "U",
    table_suggestion := "u", parent_table_suggestion := none,
    attributes := [("b", "2")], text_content := none }

/-- A table with a `pcr_uuid_context` column whose `DELETE` will fault. -/
def c3wtbl : Table := { columns := commonColsList, rows := [], comment := none }

def c3wdb : DBState :=
  { tables := [("t", c3wtbl)], constraints := [], audit := [] }

def c3wst : St :=
  { conn := { committed := c3wdb, current := c3wdb }, cache := [], trace := [] }

/-- The driver raises on `DELETE FROM t WHERE pcr_uuid_context = p`. -/
def c3wfaults : Faults :=
  { noFaults with deleteFaults := [("t", "p")] }

/-- One element of PCR `p`, so the overwrite phase hits the faulting DELETE. -/
def c3wel : Element :=
  { element_id := "y1", parent_element_id := none,
    pcr_uuid_context := some "p", element_tag := "T",
    table_suggestion := "t", parent_table_suggestion := none,
    attributes := [], text_content := none }

/-! ## Helper lemmas -/

theorem strTake_length (s : String) (n : Nat) :
    (strTake s n).length = min n s.length :=
  List.length_take n s.data

theorem strTake_of_le (s : String) (n : Nat) (h : s.length ≤ n) :
    strTake s n = s := by
  unfold strTake
  rw [List.take_of_length_le h]

theorem fkIdeal_length (c p : String) :
    (fkIdeal c p).length = c.length + p.length + 4 := by
  unfold fkIdeal
  simp only [String.length_append]
  have h1 : ("fk_" : String).length = 3 := rfl
  have h2 : ("_" : String).length = 1 := rfl
  omega

theorem fkFinal_length_le (name : String) : (fkFinal name).length ≤ 63 := by
  unfold fkFinal
  split
  · rw [strTake_length]; omega
  · omega

theorem fkParts_eq_spec (c p : String) (m : Nat) (hm : 1 ≤ m)
    (h : c.length + 1 + p.length > m) : fkParts c p m = fkPartsSpec c p m := by
  unfold fkParts fkPartsSpec
  rw [if_pos h]
  dsimp only
  have hlc : (strTake c ((m - 1) / 2)).length = min ((m - 1) / 2) c.length :=
    strTake_length c _
  have hlp : (strTake p (m - 1 - (m - 1) / 2)).length
      = min (m - 1 - (m - 1) / 2) p.length := strTake_length p _
  by_cases hc : c.length > (m - 1) / 2
  · rw [if_pos hc, if_pos hc]
    simp only [hlc]
    have hmin : min ((m - 1) / 2) c.length = (m - 1) / 2 := by omega
    rw [hmin]
    by_cases hp : p.length > m - 1 - (m - 1) / 2
    · rw [if_pos hp]
      simp only [hlp]
      have hmin2 : min (m - 1 - (m - 1) / 2) p.length = m - 1 - (m - 1) / 2 := by
        omega
      rw [hmin2, if_neg (by omega : ¬ ((m - 1) / 2 + 1 + (m - 1 - (m - 1) / 2) > m))]
    · rw [if_neg hp,
        if_neg (by omega : ¬ ((m - 1) / 2 + 1 + p.length > m)),
        strTake_of_le p _ (by omega)]
  · rw [if_neg hc, if_neg hc]
    by_cases hp : p.length > m - 1 - (m - 1) / 2
    · rw [if_pos hp]
      simp only [hlp]
      have hmin2 : min (m - 1 - (m - 1) / 2) p.length = m - 1 - (m - 1) / 2 := by
        omega
      rw [hmin2, if_neg (by omega : ¬ (c.length + 1 + (m - 1 - (m - 1) / 2) > m)),
        strTake_of_le c _ (by omega)]
    · rw [if_neg hp, if_neg (by omega : ¬ (c.length + 1 + p.length > m)),
        strTake_of_le c _ (by omega), strTake_of_le p _ (by omega)]

theorem fkHash_length_le (c p : String) : (fkHash c p).length ≤ 6 := by
  unfold fkHash
  rw [strTake_length]
  exact Nat.min_le_left _ _

/-! ## Claim C4 -/

/-- C4 counterexample: the constraint name is **not** a function of the
sorted (unordered) pair: the two orderings of the same two sanitized
identifiers are permutations of one another yet give different names. -/
theorem fk_name_not_a_function_of_sorted_pair :
    (["a", "b"] : List String).Perm ["b", "a"] ∧
      fkConstraintName "a" "b" ≠ fkConstraintName "b" "a" :=
  ⟨List.Perm.swap "b" "a" [], by decide⟩

/-- C4 (amended): the constraint name is a pure function of the **ordered**
`(child, parent)` pair of sanitized identifiers, is at most 63 characters
long, and follows exactly the algorithm the spec describes: `fk_<child>_<parent>` when that fits
in 63 bytes, else the hash-suffixed name with the budget split evenly and a
final safety truncation to 63. -/
theorem fk_name_bounded_and_matches_spec_algorithm (child parent : String) :
    (fkConstraintName child parent).length ≤ 63 ∧
      fkConstraintName child parent = fkConstraintNameSpec child parent := by
  constructor
  · unfold fkConstraintName
    split
    · assumption
    · exact fkFinal_length_le _
  · unfold fkConstraintName fkConstraintNameSpec
    by_cases hA : (fkIdeal child parent).length ≤ 63
    · rw [if_pos hA, if_pos hA]
    · rw [if_neg hA, if_neg hA]
      have hhash := fkHash_length_le child parent
      have hlen := fkIdeal_length child parent
      have hgt : child.length + 1 + parent.length >
          63 - 3 - (fkHash child parent).length - 1 := by omega
      rw [fkParts_eq_spec child parent _ (by omega) hgt]

/-! ## Claim C9 -/

/-- C9: calling `delete_existing_pcr_data` with a falsy uuid (`None` or the
empty string) returns immediately: no statement is executed and the whole
interpreter state (database included) is unchanged. -/
theorem delete_existing_pcr_data_falsy_noop (f : Faults) (st : St)
    (pcr : Option String) (h : pcr = none ∨ pcr = some "") :
    deleteExistingPcrData f st pcr = .ok st := by
  rcases h with h | h <;> subst h <;> rfl

/-- C9 witness: the theorem applied at a concrete falsy input. -/
theorem delete_existing_pcr_data_falsy_noop_witness :
    deleteExistingPcrData noFaults emptySt (some "") = .ok emptySt :=
  delete_existing_pcr_data_falsy_noop noFaults emptySt (some "") (Or.inr rfl)

/-! ## Claim C7 -/

theorem assocFind_assocSet {α : Type} (r : List (String × α)) (k j : String)
    (v : α) :
    assocFind (assocSet r k v) j = if k = j then some v else assocFind r j := by
  induction r with
  | nil => simp only [assocSet, assocFind]
  | cons hd tl ih =>
    obtain ⟨k1, v1⟩ := hd
    simp only [assocSet]
    by_cases hk : k1 = k
    · subst hk
      rw [if_pos rfl]
      by_cases hj : k1 = j
      · simp [assocFind, hj]
      · simp [assocFind, hj]
    · rw [if_neg hk]
      simp only [assocFind]
      by_cases hj : k1 = j
      · rw [if_pos hj, if_pos hj, if_neg (fun h => hk (hj.trans h.symm))]
      · rw [if_neg hj, if_neg hj]
        exact ih

theorem assocFind_filterRow (r : Row) (cols : List String) (k : String) :
    assocFind (filterRow r cols) k =
      if sLower k ∈ cols then assocFind r k else none := by
  unfold filterRow
  induction r with
  | nil =>
    simp only [List.filter_nil, assocFind]
    split <;> rfl
  | cons hd tl ih =>
    obtain ⟨k1, v1⟩ := hd
    simp only [List.filter_cons]
    by_cases hq : sLower k1 ∈ cols
    · rw [if_pos (by simpa using hq)]
      simp only [assocFind]
      by_cases hk : k1 = k
      · subst hk
        rw [if_pos rfl, if_pos hq, if_pos rfl]
      · rw [if_neg hk, ih]
        by_cases hc : sLower k ∈ cols
        · rw [if_pos hc, if_pos hc, if_neg hk]
        · rw [if_neg hc, if_neg hc]
    · rw [if_neg (by simpa using hq), ih]
      by_cases hc : sLower k ∈ cols
      · rw [if_pos hc, if_pos hc]
        simp only [assocFind]
        have hk : k1 ≠ k := fun h => hq (h ▸ hc)
        rw [if_neg hk]
      · rw [if_neg hc, if_neg hc]

theorem writerRowAux_lookup (attrs : List (String × String)) (r : Row)
    (k : String) :
    assocFind (writerRowAux attrs r) k =
      match lastAttrValue attrs k with
      | some w => some (some w)
      | none => assocFind r k := by
  induction attrs generalizing r with
  | nil => simp only [writerRowAux, lastAttrValue]
  | cons hd rest ih =>
    obtain ⟨a, v⟩ := hd
    simp only [writerRowAux, lastAttrValue]
    rw [ih]
    cases hl : lastAttrValue rest k
    · simp only [assocFind_assocSet]
      by_cases ha : sLower (sanitize_xml_name a) = k
      · rw [if_pos ha, if_pos ha]
      · rw [if_neg ha, if_neg ha]
    · rfl

theorem writerBase_lookup (el : Element) (k : String) :
    assocFind (writerBase el) k = commonValue el k := by
  unfold writerBase commonValue
  simp only [assocFind]
  by_cases h1 : k = "element_id"
  · subst h1; simp
  rw [if_neg (fun h => h1 h.symm), if_neg h1]
  by_cases h2 : k = "parent_element_id"
  · subst h2; simp
  rw [if_neg (fun h => h2 h.symm), if_neg h2]
  by_cases h3 : k = "pcr_uuid_context"
  · subst h3; simp
  rw [if_neg (fun h => h3 h.symm), if_neg h3]
  by_cases h4 : k = "original_tag_name"
  · subst h4; simp
  rw [if_neg (fun h => h4 h.symm), if_neg h4]
  by_cases h5 : k = "text_content"
  · subst h5; simp
  rw [if_neg (fun h => h5 h.symm), if_neg h5]

/-- C7: the row handed to the single-row parameterized INSERT is the five
common fields overlaid with one entry per attribute under its sanitized
lowercased name — attributes sanitizing to the same identifier collapse into
one key with the last write (in iteration order) winning — and that row is
projected onto the table's actual column set, keys not among the columns
being silently dropped. -/
theorem writer_row_built_and_projected (el : Element) (cols : List String)
    (k : String) :
    assocFind (filterRow (writerRow el) cols) k =
      if sLower k ∈ cols then
        match lastAttrValue el.attributes k with
        | some v => some (some v)
        | none => commonValue el k
      else none := by
  rw [assocFind_filterRow]
  unfold writerRow
  rw [writerRowAux_lookup, writerBase_lookup]

/-! ## Transaction-frame lemmas

No phase of the transactional body ever commits: the committed database is
preserved (also through the component-internal rollbacks), and no phase
writes audit rows into the current transaction. -/

theorem dbCreateTable_audit (db : DBState) (t : String) (cols : List String)
    (cmt : Option String) : (dbCreateTable db t cols cmt).audit = db.audit := by
  unfold dbCreateTable
  cases assocFind db.tables t <;> rfl

theorem dbAddColumn_audit (db : DBState) (t c : String) (db1 : DBState)
    (h : dbAddColumn db t c = some db1) : db1.audit = db.audit := by
  unfold dbAddColumn at h
  split at h
  · cases h
  · split at h
    · cases h
    · injection h with h1
      subst h1
      rfl

theorem dbDeleteRows_audit (db : DBState) (t u : String) :
    (dbDeleteRows db t u).1.audit = db.audit := by
  unfold dbDeleteRows
  split <;> rfl

theorem dbInsertRow_audit (db : DBState) (t : String) (row : Row)
    (db1 : DBState) (h : dbInsertRow db t row = some db1) :
    db1.audit = db.audit := by
  unfold dbInsertRow at h
  split at h
  · cases h
  · split at h
    · cases h
    · injection h with h1
      subst h1
      rfl

theorem dbAddConstraint_frame (db : DBState) (cst : FKConstraint)
    (db1 : DBState) (h : dbAddConstraint db cst = some db1) :
    db1.audit = db.audit ∧ db1.tables = db.tables := by
  unfold dbAddConstraint at h
  split at h
  · split at h
    · cases h
    · injection h with h1
      subst h1
      exact ⟨rfl, rfl⟩
  · cases h

theorem getTableColumns_conn (st : St) (n : String) :
    (getTableColumns st n).2.conn = st.conn := by
  unfold getTableColumns
  dsimp only
  split <;> rfl

/-- The frame the transactional body preserves: the committed database is
exactly `C0` and the current transaction holds no new audit rows. -/
def txFrame (C0 : DBState) (st : St) : Prop :=
  st.conn.committed = C0 ∧ st.conn.current.audit = C0.audit

theorem txFrame_getTableColumns {C0 : DBState} {st : St} (n : String)
    (h : txFrame C0 st) : txFrame C0 (getTableColumns st n).2 := by
  unfold txFrame
  rw [getTableColumns_conn]
  exact h

theorem txFrame_rollback {C0 : DBState} {st : St} (h : txFrame C0 st)
    (tr : List Stmt) :
    txFrame C0 { st with conn := rollbackConn st.conn, trace := tr } := by
  obtain ⟨h1, h2⟩ := h
  exact ⟨h1, by simp [rollbackConn, h1]⟩

theorem alterLoop_txFrame (f : Faults) (t key : String) (cs : List String) :
    ∀ (C0 : DBState) (st : St), txFrame C0 st →
      txFrame C0 (alterLoop f t key cs st) := by
  induction cs with
  | nil => intro C0 st h; exact h
  | cons c rest ih =>
    intro C0 st h
    simp only [alterLoop]
    split
    · exact ih C0 _ (txFrame_rollback h _)
    · cases hdb : dbAddColumn st.conn.current t c
      · exact ih C0 _ (txFrame_rollback h _)
      · refine ih C0 _ ⟨h.1, ?_⟩
        have := dbAddColumn_audit st.conn.current t c _ hdb
        simpa [this] using h.2

theorem ensureCreate_txFrame {C0 : DBState} {st1 : St} (f : Faults)
    (raw tname : String) (attrs : List (String × String))
    (ec : List String) (st2 : St) (h : txFrame C0 st1)
    (he : ensureCreate f st1 raw tname attrs ec = some st2) :
    txFrame C0 st2 := by
  unfold ensureCreate at he
  split at he
  · split at he
    · cases he
    · injection he with h1
      subst h1
      refine ⟨h.1, ?_⟩
      have := dbCreateTable_audit st1.conn.current tname
        (commonColsList ++ attrCreateCols attrs commonColsList)
        (match attrs.find? (fun kv => kv.1 == "element_path") with
         | some kv => some kv.2
         | none => none)
      simpa [this] using h.2
  · injection he with h1
    subst h1
    exact h

theorem ensure_txFrame (f : Faults) (sugg : String)
    (attrs : List (String × String)) (C0 : DBState) (st : St)
    (h : txFrame C0 st) :
    txFrame C0 (ensureTableAndColumns f st sugg attrs).2 := by
  unfold ensureTableAndColumns
  dsimp only
  split
  · exact h
  · have h1 := @txFrame_getTableColumns C0 _ (sanitize_xml_name sugg) h
    cases hcr : ensureCreate f (getTableColumns st (sanitize_xml_name sugg)).2
      (sanitize_xml_name sugg) (sLower (sanitize_xml_name sugg)) attrs
      (getTableColumns st (sanitize_xml_name sugg)).1
    · simp only [hcr]
      exact txFrame_rollback h1 _
    · simp only [hcr]
      rename_i st2
      have h2 := ensureCreate_txFrame f _ _ attrs _ st2 h1 hcr
      have h3 := @txFrame_getTableColumns C0 _ (sanitize_xml_name sugg) h2
      have h4 := alterLoop_txFrame f (sLower (sanitize_xml_name sugg))
        (sanitize_xml_name sugg)
        (missingAttrCols attrs (getTableColumns st2 (sanitize_xml_name sugg)).1)
        C0 _ h3
      exact txFrame_getTableColumns (sanitize_xml_name sugg) h4

theorem deleteLoop_txFrame (f : Faults) (u : String) (ns : List String) :
    ∀ (C0 : DBState) (st : St), txFrame C0 st →
      txFrame C0 (exSt (deleteLoop f u ns st)) := by
  induction ns with
  | nil => intro C0 st h; exact h
  | cons n rest ih =>
    intro C0 st h
    simp only [deleteLoop]
    have hg := @txFrame_getTableColumns C0 _ n h
    split
    · split
      · exact hg
      · refine ih C0 _ ⟨hg.1, ?_⟩
        have := dbDeleteRows_audit (getTableColumns st n).2.conn.current n u
        simpa [this] using hg.2
    · exact ih C0 _ hg

theorem deleteExisting_txFrame (f : Faults) (pcr : Option String)
    (C0 : DBState) (st : St) (h : txFrame C0 st) :
    txFrame C0 (exSt (deleteExistingPcrData f st pcr)) := by
  unfold deleteExistingPcrData
  split
  · exact h
  · split
    · exact h
    · split
      · exact h
      · exact deleteLoop_txFrame f _ _ C0 st h

theorem deletePhase_txFrame (f : Faults) (us : List String) :
    ∀ (C0 : DBState) (st : St), txFrame C0 st →
      txFrame C0 (exSt (deletePhase f us st)) := by
  induction us with
  | nil => intro C0 st h; exact h
  | cons u rest ih =>
    intro C0 st h
    simp only [deletePhase]
    cases hd : deleteExistingPcrData f st (some u) with
    | error st1 =>
      have hh := deleteExisting_txFrame f (some u) C0 st h
      rw [hd] at hh
      exact hh
    | ok st1 =>
      have hh := deleteExisting_txFrame f (some u) C0 st h
      rw [hd] at hh
      exact ih C0 st1 hh

theorem insertLoop_txFrame (f : Faults) (els : List Element) :
    ∀ (C0 : DBState) (st : St) (fks : List (String × String)),
      txFrame C0 st → txFrame C0 (exStP (insertLoop f els st fks)) := by
  induction els with
  | nil => intro C0 st fks h; exact h
  | cons el rest ih =>
    intro C0 st fks h
    simp only [insertLoop]
    have he := ensure_txFrame f el.table_suggestion el.attributes C0 st h
    cases hr : (ensureTableAndColumns f st el.table_suggestion el.attributes).1.1 with
    | none => exact he
    | some raw =>
      dsimp only
      by_cases hemp :
          (ensureTableAndColumns f st el.table_suggestion el.attributes).1.2.isEmpty = true
      · rw [if_pos hemp]
        exact he
      · rw [if_neg hemp]
        by_cases hins : el.element_id ∈ f.insertFaults
        · rw [if_pos hins]
          exact he
        · rw [if_neg hins]
          cases hdb : dbInsertRow
              (ensureTableAndColumns f st el.table_suggestion el.attributes).2.conn.current
              (sLower raw)
              (filterRow (writerRow el)
                (ensureTableAndColumns f st el.table_suggestion el.attributes).1.2) with
          | none => exact he
          | some db1 =>
            refine ih C0 _ _ ⟨he.1, ?_⟩
            have hau := dbInsertRow_audit _ _ _ _ hdb
            simpa [hau] using he.2

theorem fkPhase_txFrame (f : Faults) (pairs : List (String × String)) :
    ∀ (C0 : DBState) (st : St), txFrame C0 st →
      txFrame C0 (exSt (fkPhase f pairs st)) := by
  induction pairs with
  | nil => intro C0 st h; exact h
  | cons pr rest ih =>
    intro C0 st h
    obtain ⟨child, parent⟩ := pr
    simp only [fkPhase]
    split
    · exact h
    · have h1 : txFrame C0 (emit st (.fkCheck (sLower child)
        (fkConstraintName child parent))) := ⟨h.1, h.2⟩
      split
      · split
        · exact h1
        · cases hdb : dbAddConstraint
            (emit st (.fkCheck (sLower child) (fkConstraintName child parent))).conn.current
            (plannerConstraint child parent) with
          | none => exact h1
          | some db1 =>
            refine ih C0 _ ⟨h1.1, ?_⟩
            have := (dbAddConstraint_frame _ _ _ hdb).1
            simpa [this] using h1.2
      · exact ih C0 _ h1

theorem runPhases_txFrame (f : Faults) (els : List Element)
    (us : List String) (C0 : DBState) (st : St) (h : txFrame C0 st) :
    txFrame C0 (exSt (runPhases f els us st)) := by
  unfold runPhases
  cases hd : deletePhase f us st with
  | error st1 =>
    have hh := deletePhase_txFrame f us C0 st h
    rw [hd] at hh
    exact hh
  | ok st1 =>
    have hh := deletePhase_txFrame f us C0 st h
    rw [hd] at hh
    dsimp only
    cases hi : insertLoop f els st1 [] with
    | error st2 =>
      have h2 := insertLoop_txFrame f els C0 st1 [] hh
      rw [hi] at h2
      exact h2
    | ok p =>
      obtain ⟨st2, fks⟩ := p
      have h2 := insertLoop_txFrame f els C0 st1 [] hh
      rw [hi] at h2
      exact fkPhase_txFrame f fks C0 st2 h2

/-! ## Claim C10 -/

/-- C10: `log_processed_file` never propagates a DB error — on success it
commits the single audit insert and returns `True`, on a DB error it rolls
back (undoing only that audit write) and returns `False` — and since
`process_xml_file` ignores the returned flag, a failing audit write changes
neither the pipeline's success result, nor the final filesystem state, nor
the committed tables and constraints. -/
theorem log_audit_failure_is_isolated (f : Faults) (st : St) (fs : FS)
    (name ts : String) (elements : List Element)
    (hclean : st.conn.current = st.conn.committed) :
    (∀ (st1 : St) (nm s : String),
        (logProcessedFile false st1 nm s).1 = true ∧
        (logProcessedFile true st1 nm s).1 = false ∧
        (logProcessedFile true st1 nm s).2.conn = rollbackConn st1.conn) ∧
    (processXmlFile f true st fs name elements ts).1 =
      (processXmlFile f false st fs name elements ts).1 ∧
    (processXmlFile f true st fs name elements ts).2.2 =
      (processXmlFile f false st fs name elements ts).2.2 ∧
    (processXmlFile f true st fs name elements ts).2.1.conn.committed.tables =
      (processXmlFile f false st fs name elements ts).2.1.conn.committed.tables ∧
    (processXmlFile f true st fs name elements ts).2.1.conn.committed.constraints =
      (processXmlFile f false st fs name elements ts).2.1.conn.committed.constraints := by
  refine ⟨fun st1 nm s => ⟨rfl, rfl, rfl⟩, ?_⟩
  unfold processXmlFile
  by_cases hemp : elements.isEmpty = true
  · rw [if_pos hemp, if_pos hemp]
    simp [logProcessedFile, clearCache, rollbackConn, hclean]
  · rw [if_neg hemp, if_neg hemp]
    dsimp only
    cases hr : runPhases f elements (collectUuids elements []) st with
    | error st1 =>
      simp [logProcessedFile, clearCache, rollbackConn]
    | ok st1 =>
      simp [logProcessedFile, clearCache, rollbackConn]

/-- C10 witness: the audit-fault independence at a concrete input. -/
theorem log_audit_failure_is_isolated_witness :
    (processXmlFile noFaults true emptySt emptyFS "f.xml" [] "TS").1 =
      (processXmlFile noFaults false emptySt emptyFS "f.xml" [] "TS").1 :=
  (log_audit_failure_is_isolated noFaults emptySt emptyFS "f.xml" "TS" [] rfl).2.1

/-! ## Claim C8 -/

theorem archiveFile_spec (name : String) (fs : FS)
    (hfs : fs.inputPresent = true) :
    (archiveFile name fs).inputPresent = false ∧
    name ∈ (archiveFile name fs).archive ∧
    (archiveFile name fs).errorFiles = fs.errorFiles := by
  unfold archiveFile
  rw [if_pos hfs]
  refine ⟨rfl, ?_, rfl⟩
  by_cases hm : name ∈ fs.archive
  · rw [if_pos hm]
    exact hm
  · rw [if_neg hm]
    exact List.mem_append.mpr (Or.inr (List.mem_singleton_self name))

theorem moveToError_spec (name ts : String) (fs : FS)
    (hfs : fs.inputPresent = true) :
    (moveToError name ts fs).inputPresent = false ∧
    (if name ∈ fs.errorFiles then errorName name ts else name) ∈
      (moveToError name ts fs).errorFiles ∧
    (moveToError name ts fs).archive = fs.archive := by
  unfold moveToError
  rw [if_pos hfs]
  exact ⟨rfl, List.mem_append.mpr (Or.inr (List.mem_singleton_self _)), rfl⟩

/-- C8: exactly one outcome per processed file.  On success the transaction
is committed (the final connection is clean), an audit row with status
`Staged_Dynamic_PG_V4` is appended, and the file moves to the archive while
the error directory is untouched.  On failure the transaction is rolled
back (committed tables and constraints are exactly the entry ones), an
`Error_*` audit row is committed on a fresh transaction, and the file moves
to the error directory — under a timestamped name when a same-named file is
already there — while the archive is untouched. -/
theorem process_outcome_exclusive (f : Faults) (st : St) (fs : FS)
    (name ts : String) (elements : List Element)
    (hclean : st.conn.current = st.conn.committed)
    (hfs : fs.inputPresent = true) :
    ((processXmlFile f false st fs name elements ts).1 = true →
       (processXmlFile f false st fs name elements ts).2.1.conn.committed =
         (processXmlFile f false st fs name elements ts).2.1.conn.current ∧
       (processXmlFile f false st fs name elements ts).2.1.conn.committed.audit =
         st.conn.committed.audit ++ [⟨name, "Staged_Dynamic_PG_V4"⟩] ∧
       name ∈ (processXmlFile f false st fs name elements ts).2.2.archive ∧
       (processXmlFile f false st fs name elements ts).2.2.errorFiles =
         fs.errorFiles ∧
       (processXmlFile f false st fs name elements ts).2.2.inputPresent = false) ∧
    ((processXmlFile f false st fs name elements ts).1 = false →
       (processXmlFile f false st fs name elements ts).2.1.conn.committed.tables =
         st.conn.committed.tables ∧
       (processXmlFile f false st fs name elements ts).2.1.conn.committed.constraints =
         st.conn.committed.constraints ∧
       (∃ s, (s = "Error_Parsing_Empty" ∨ s = "Error_Staging_Tx_PG_V4") ∧
         (processXmlFile f false st fs name elements ts).2.1.conn.committed.audit =
           st.conn.committed.audit ++ [⟨name, s⟩]) ∧
       (if name ∈ fs.errorFiles then errorName name ts else name) ∈
         (processXmlFile f false st fs name elements ts).2.2.errorFiles ∧
       (processXmlFile f false st fs name elements ts).2.2.archive = fs.archive ∧
       (processXmlFile f false st fs name elements ts).2.2.inputPresent = false) := by
  have hframe0 : txFrame st.conn.committed st := ⟨rfl, by rw [hclean]⟩
  unfold processXmlFile
  by_cases hemp : elements.isEmpty = true
  · rw [if_pos hemp]
    constructor
    · intro hcontr
      simp at hcontr
    · intro _
      refine ⟨?_, ?_, ⟨"Error_Parsing_Empty", Or.inl rfl, ?_⟩, ?_, ?_, ?_⟩
      · simp [logProcessedFile, clearCache, hclean]
      · simp [logProcessedFile, clearCache, hclean]
      · simp [logProcessedFile, clearCache, hclean]
      · exact (moveToError_spec name ts fs hfs).2.1
      · exact (moveToError_spec name ts fs hfs).2.2
      · exact (moveToError_spec name ts fs hfs).1
  · rw [if_neg hemp]
    dsimp only
    cases hr : runPhases f elements (collectUuids elements []) st with
    | error st1 =>
      have hfr := runPhases_txFrame f elements (collectUuids elements [])
        st.conn.committed st hframe0
      rw [hr] at hfr
      simp only [exSt] at hfr
      constructor
      · intro hcontr
        simp at hcontr
      · intro _
        refine ⟨?_, ?_, ⟨"Error_Staging_Tx_PG_V4", Or.inr rfl, ?_⟩, ?_, ?_, ?_⟩
        · simp [logProcessedFile, clearCache, rollbackConn, hfr.1]
        · simp [logProcessedFile, clearCache, rollbackConn, hfr.1]
        · simp [logProcessedFile, clearCache, rollbackConn, hfr.1]
        · exact (moveToError_spec name ts fs hfs).2.1
        · exact (moveToError_spec name ts fs hfs).2.2
        · exact (moveToError_spec name ts fs hfs).1
    | ok st1 =>
      have hfr := runPhases_txFrame f elements (collectUuids elements [])
        st.conn.committed st hframe0
      rw [hr] at hfr
      simp only [exSt] at hfr
      constructor
      · intro _
        refine ⟨?_, ?_, ?_, ?_, ?_⟩
        · simp [logProcessedFile, clearCache]
        · simp [logProcessedFile, clearCache, hfr.2]
        · exact (archiveFile_spec name fs hfs).2.1
        · exact (archiveFile_spec name fs hfs).2.2
        · exact (archiveFile_spec name fs hfs).1
      · intro hcontr
        simp at hcontr

/-- C8 witness: a concrete successful run, exercising the success bundle. -/
theorem process_outcome_exclusive_witness :
    (processXmlFile noFaults false emptySt emptyFS "f.xml" [] "TS").2.1.conn.committed.tables =
        emptySt.conn.committed.tables ∧
      (processXmlFile noFaults false emptySt emptyFS "f.xml" [] "TS").2.1.conn.committed.constraints =
        emptySt.conn.committed.constraints ∧
      (∃ s, (s = "Error_Parsing_Empty" ∨ s = "Error_Staging_Tx_PG_V4") ∧
        (processXmlFile noFaults false emptySt emptyFS "f.xml" [] "TS").2.1.conn.committed.audit =
          emptySt.conn.committed.audit ++ [⟨"f.xml", s⟩]) ∧
      (if "f.xml" ∈ emptyFS.errorFiles then errorName "f.xml" "TS" else "f.xml") ∈
        (processXmlFile noFaults false emptySt emptyFS "f.xml" [] "TS").2.2.errorFiles ∧
      (processXmlFile noFaults false emptySt emptyFS "f.xml" [] "TS").2.2.archive =
        emptyFS.archive ∧
      (processXmlFile noFaults false emptySt emptyFS "f.xml" [] "TS").2.2.inputPresent = false :=
  (process_outcome_exclusive noFaults emptySt emptyFS "f.xml" "TS" [] rfl rfl).2
    (by decide)

/-! ## Claim C2: characterization of the PCR overwrite -/

theorem assocFind_mem {α : Type} (l : List (String × α)) (k : String) (v : α)
    (h : assocFind l k = some v) : (k, v) ∈ l := by
  induction l with
  | nil => cases h
  | cons hd tl ih =>
    obtain ⟨k1, v1⟩ := hd
    unfold assocFind at h
    by_cases hk : k1 = k
    · rw [if_pos hk] at h
      injection h with h1
      subst hk
      subst h1
      exact List.mem_cons_self _ _
    · rw [if_neg hk] at h
      exact List.mem_cons_of_mem _ (ih h)

theorem assocSet_mem {α : Type} (l : List (String × α)) (k : String) (v : α)
    (e : String × α) (h : e ∈ assocSet l k v) : e = (k, v) ∨ e ∈ l := by
  induction l with
  | nil =>
    unfold assocSet at h
    rcases List.mem_singleton.mp h with h1
    exact Or.inl h1
  | cons hd tl ih =>
    obtain ⟨k1, v1⟩ := hd
    unfold assocSet at h
    by_cases hk : k1 = k
    · rw [if_pos hk] at h
      rcases List.mem_cons.mp h with h1 | h1
      · exact Or.inl h1
      · exact Or.inr (List.mem_cons_of_mem _ h1)
    · rw [if_neg hk] at h
      rcases List.mem_cons.mp h with h1 | h1
      · exact Or.inr (h1 ▸ List.mem_cons_self _ _)
      · rcases ih h1 with h2 | h2
        · exact Or.inl h2
        · exact Or.inr (List.mem_cons_of_mem _ h2)

theorem assocFind_updList (l : List (String × Table)) (t : String)
    (g : Table → Table) (n : String) :
    assocFind (l.map (fun nt => if nt.1 = t then (nt.1, g nt.2) else nt)) n =
      if n = t then (assocFind l n).map g else assocFind l n := by
  induction l with
  | nil =>
    simp only [List.map_nil, assocFind]
    split <;> rfl
  | cons hd tl ih =>
    obtain ⟨k1, v1⟩ := hd
    simp only [List.map_cons]
    by_cases hkt : k1 = t
    · rw [if_pos (by simpa using hkt)]
      simp only [assocFind]
      by_cases hn : k1 = n
      · subst hn
        rw [if_pos rfl, if_pos rfl, if_pos hkt]
        rfl
      · rw [if_neg hn, if_neg hn, ih]
    · rw [if_neg (by simpa using hkt)]
      simp only [assocFind]
      by_cases hn : k1 = n
      · subst hn
        rw [if_pos rfl, if_pos rfl, if_neg (fun h => hkt h)]
      · rw [if_neg hn, if_neg hn, ih]

theorem assocFind_dbUpdateTable (db : DBState) (t : String)
    (g : Table → Table) (n : String) :
    assocFind (dbUpdateTable db t g).tables n =
      if n = t then (assocFind db.tables n).map g else assocFind db.tables n :=
  assocFind_updList db.tables t g n

theorem dbDeleteRows_find (db : DBState) (t u : String) (n : String) :
    assocFind (dbDeleteRows db t u).1.tables n =
      if n = t then (assocFind db.tables n).map (purgeRows u)
      else assocFind db.tables n := by
  unfold dbDeleteRows
  cases hf : assocFind db.tables t with
  | none =>
    by_cases hn : n = t
    · subst hn
      rw [if_pos rfl, hf]
      rfl
    · rw [if_neg hn]
  | some tbl =>
    dsimp only
    rw [assocFind_dbUpdateTable]
    by_cases hn : n = t
    · subst hn
      rw [if_pos rfl, if_pos rfl, hf]
      rfl
    · rw [if_neg hn, if_neg hn]

theorem dbDeleteRows_constraints (db : DBState) (t u : String) :
    (dbDeleteRows db t u).1.constraints = db.constraints := by
  unfold dbDeleteRows
  cases assocFind db.tables t <;> rfl

theorem purgeRows_columns (u : String) (tbl : Table) :
    (purgeRows u tbl).columns = tbl.columns := rfl

theorem dbDeleteRows_actualCols (db : DBState) (t u raw : String) :
    actualCols (dbDeleteRows db t u).1 raw = actualCols db raw := by
  unfold actualCols
  rw [dbDeleteRows_find]
  by_cases hn : sLower raw = t
  · rw [if_pos hn]
    cases assocFind db.tables (sLower raw) <;> rfl
  · rw [if_neg hn]

theorem purgeRows_idem (u : String) (tbl : Table) :
    purgeRows u (purgeRows u tbl) = purgeRows u tbl := by
  unfold purgeRows
  simp only [List.filter_filter]
  congr 1
  apply List.filter_congr
  intro r _
  cases rowPcr r == some u <;> rfl

theorem getTableColumns_fst (st : St) (n : String)
    (hacc : cacheAccurate st) :
    (getTableColumns st n).1 = actualCols st.conn.current (sanitize_xml_name n) := by
  unfold getTableColumns
  dsimp only
  cases hc : assocFind st.cache (sanitize_xml_name n) with
  | none => rfl
  | some cols => exact hacc _ (assocFind_mem _ _ _ hc)

theorem getTableColumns_cacheAccurate (st : St) (n : String)
    (hacc : cacheAccurate st) :
    cacheAccurate (getTableColumns st n).2 := by
  unfold getTableColumns
  dsimp only
  cases hc : assocFind st.cache (sanitize_xml_name n) with
  | none =>
    intro e he
    rcases assocSet_mem _ _ _ _ he with h1 | h1
    · subst h1
      rfl
    · exact hacc _ h1
  | some cols => exact hacc

theorem deleteLoop_ok (f : Faults) (u : String) (ns : List String)
    (hf : ∀ n, (n, u) ∉ f.deleteFaults) :
    ∀ st : St, cacheAccurate st →
      ∃ st1, deleteLoop f u ns st = .ok st1 ∧
        cacheAccurate st1 ∧
        st1.conn.committed = st.conn.committed ∧
        st1.conn.current.constraints = st.conn.current.constraints ∧
        (∀ raw, actualCols st1.conn.current raw = actualCols st.conn.current raw) ∧
        (∀ n, assocFind st1.conn.current.tables n =
          if "pcr_uuid_context" ∈ actualCols st.conn.current (sanitize_xml_name n)
              ∧ n ∈ ns
          then (assocFind st.conn.current.tables n).map (purgeRows u)
          else assocFind st.conn.current.tables n) := by
  induction ns with
  | nil =>
    intro st hacc
    refine ⟨st, rfl, hacc, rfl, rfl, fun raw => rfl, fun n => ?_⟩
    rw [if_neg (by simp)]
  | cons nm rest ih =>
    intro st hacc
    have hg := getTableColumns_fst st nm hacc
    have hacc2 := getTableColumns_cacheAccurate st nm hacc
    have hcn := getTableColumns_conn st nm
    simp only [deleteLoop]
    by_cases hcol :
        "pcr_uuid_context" ∈ actualCols st.conn.current (sanitize_xml_name nm)
    · rw [if_pos (hg ▸ hcol), if_neg (hf nm)]
      set stb : St :=
        { (getTableColumns st nm).2 with
          conn := { (getTableColumns st nm).2.conn with
            current := (dbDeleteRows (getTableColumns st nm).2.conn.current nm u).1 },
          trace := (getTableColumns st nm).2.trace ++ [.delete nm u] } with hstb
      have haccb : cacheAccurate stb := by
        intro e he
        have h1 := hacc2 e he
        rw [hstb]
        dsimp only
        rw [dbDeleteRows_actualCols]
        exact h1
      obtain ⟨st1, hrun, hacc1, hcom1, hcons1, hact1, hfind1⟩ := ih stb haccb
      refine ⟨st1, hrun, hacc1, ?_, ?_, ?_, ?_⟩
      · rw [hcom1, hstb]
        dsimp only
        rw [hcn]
      · rw [hcons1, hstb]
        dsimp only
        rw [dbDeleteRows_constraints, hcn]
      · intro raw
        rw [hact1 raw, hstb]
        dsimp only
        rw [dbDeleteRows_actualCols, hcn]
      · intro n
        have hb : assocFind stb.conn.current.tables n =
            if n = nm then (assocFind st.conn.current.tables n).map (purgeRows u)
            else assocFind st.conn.current.tables n := by
          rw [hstb]
          dsimp only
          rw [dbDeleteRows_find, hcn]
        have hactb : actualCols stb.conn.current (sanitize_xml_name n) =
            actualCols st.conn.current (sanitize_xml_name n) := by
          rw [hstb]
          dsimp only
          rw [dbDeleteRows_actualCols, hcn]
        rw [hfind1 n, hactb, hb]
        by_cases hn : n = nm
        · subst hn
          by_cases hrest : n ∈ rest
          · rw [if_pos ⟨hcol, hrest⟩, if_pos rfl,
              if_pos ⟨hcol, List.mem_cons_self n rest⟩]
            cases assocFind st.conn.current.tables n with
            | none => rfl
            | some tbl =>
              simp [purgeRows_idem]
          · rw [if_neg (by intro hcontr; exact hrest hcontr.2), if_pos rfl,
              if_pos ⟨hcol, List.mem_cons_self n rest⟩]
        · rw [if_neg hn]
          by_cases hcnd : "pcr_uuid_context" ∈
              actualCols st.conn.current (sanitize_xml_name n) ∧ n ∈ rest
          · rw [if_pos hcnd, if_pos ⟨hcnd.1, List.mem_cons_of_mem _ hcnd.2⟩]
          · rw [if_neg hcnd, if_neg (by
              intro hcontr
              exact hcnd ⟨hcontr.1, by
                rcases List.mem_cons.mp hcontr.2 with h1 | h1
                · exact absurd h1 hn
                · exact h1⟩)]
    · rw [if_neg (hg ▸ hcol)]
      obtain ⟨st1, hrun, hacc1, hcom1, hcons1, hact1, hfind1⟩ :=
        ih (getTableColumns st nm).2 hacc2
      refine ⟨st1, hrun, hacc1, ?_, ?_, ?_, ?_⟩
      · rw [hcom1, hcn]
      · rw [hcons1, hcn]
      · intro raw
        rw [hact1 raw, hcn]
      · intro n
        rw [hfind1 n, hcn]
        by_cases hn : n = nm
        · subst hn
          rw [if_neg (by intro hcontr; exact hcol hcontr.1),
            if_neg (by intro hcontr; exact hcol hcontr.1)]
        · by_cases hcnd : "pcr_uuid_context" ∈
              actualCols st.conn.current (sanitize_xml_name n) ∧ n ∈ rest
          · rw [if_pos hcnd, if_pos ⟨hcnd.1, List.mem_cons_of_mem _ hcnd.2⟩]
          · rw [if_neg hcnd, if_neg (by
              intro hcontr
              exact hcnd ⟨hcontr.1, by
                rcases List.mem_cons.mp hcontr.2 with h1 | h1
                · exact absurd h1 hn
                · exact h1⟩)]

theorem assocFind_mem_keys {α : Type} (l : List (String × α)) (k : String)
    (v : α) (h : assocFind l k = some v) : k ∈ l.map Prod.fst :=
  List.mem_map.mpr ⟨(k, v), assocFind_mem l k v h, rfl⟩

theorem deleteExisting_ok (f : Faults) (u : String) (hu : ¬ u = "")
    (henum : f.enumTablesFault = false)
    (hf : ∀ n, (n, u) ∉ f.deleteFaults) (st : St) (hacc : cacheAccurate st) :
    ∃ st1, deleteExistingPcrData f st (some u) = .ok st1 ∧
      cacheAccurate st1 ∧
      st1.conn.committed = st.conn.committed ∧
      st1.conn.current.constraints = st.conn.current.constraints ∧
      (∀ raw, actualCols st1.conn.current raw = actualCols st.conn.current raw) ∧
      (∀ n, assocFind st1.conn.current.tables n =
        if "pcr_uuid_context" ∈ actualCols st.conn.current (sanitize_xml_name n)
            ∧ dynTableFilter n = true ∧ n ∈ st.conn.current.tables.map Prod.fst
        then (assocFind st.conn.current.tables n).map (purgeRows u)
        else assocFind st.conn.current.tables n) := by
  obtain ⟨st1, hrun, hacc1, hcom1, hcons1, hact1, hfind1⟩ :=
    deleteLoop_ok f u ((st.conn.current.tables.map Prod.fst).filter dynTableFilter)
      hf st hacc
  refine ⟨st1, ?_, hacc1, hcom1, hcons1, hact1, ?_⟩
  · unfold deleteExistingPcrData
    rw [if_neg (by simp [optTruthy, hu])]
    dsimp only
    rw [if_neg (by simp [henum])]
    exact hrun
  · intro n
    rw [hfind1 n]
    by_cases hc : "pcr_uuid_context" ∈
        actualCols st.conn.current (sanitize_xml_name n)
          ∧ dynTableFilter n = true ∧ n ∈ st.conn.current.tables.map Prod.fst
    · rw [if_pos hc,
        if_pos ⟨hc.1, List.mem_filter.mpr ⟨hc.2.2, hc.2.1⟩⟩]
    · rw [if_neg hc, if_neg (by
        intro hcontr
        have h2 := List.mem_filter.mp hcontr.2
        exact hc ⟨hcontr.1, h2.2, h2.1⟩)]

theorem deletePhase_ok (f : Faults) (us : List String)
    (henum : f.enumTablesFault = false) (hf : f.deleteFaults = []) :
    ∀ st : St, cacheAccurate st → (∀ u ∈ us, ¬ u = "") →
      ∃ st1, deletePhase f us st = .ok st1 ∧
        cacheAccurate st1 ∧
        st1.conn.committed = st.conn.committed ∧
        st1.conn.current.constraints = st.conn.current.constraints ∧
        (∀ raw, actualCols st1.conn.current raw = actualCols st.conn.current raw) ∧
        (∀ n tbl1, assocFind st1.conn.current.tables n = some tbl1 →
          ∃ tbl0, assocFind st.conn.current.tables n = some tbl0 ∧
            tbl1.columns = tbl0.columns ∧
            (∀ r ∈ tbl1.rows, r ∈ tbl0.rows) ∧
            (∀ u ∈ us,
              "pcr_uuid_context" ∈
                  actualCols st.conn.current (sanitize_xml_name n) →
              dynTableFilter n = true →
              ∀ r ∈ tbl1.rows, ¬ rowPcr r = some u)) := by
  induction us with
  | nil =>
    intro st hacc _
    exact ⟨st, rfl, hacc, rfl, rfl, fun raw => rfl,
      fun n tbl1 h1 => ⟨tbl1, h1, rfl, fun r hr => hr, fun u hu => absurd hu (by simp)⟩⟩
  | cons u rest ih =>
    intro st hacc hus
    obtain ⟨sta, hruna, hacca, hcoma, hconsa, hacta, hfinda⟩ :=
      deleteExisting_ok f u (hus u (List.mem_cons_self u rest)) henum
        (fun n => by rw [hf]; simp) st hacc
    obtain ⟨st1, hrun1, hacc1, hcom1, hcons1, hact1, hfind1⟩ :=
      ih sta hacca (fun v hv => hus v (List.mem_cons_of_mem _ hv))
    refine ⟨st1, ?_, hacc1, hcom1.trans hcoma, hcons1.trans hconsa,
      fun raw => (hact1 raw).trans (hacta raw), ?_⟩
    · simp only [deletePhase, hruna]
      exact hrun1
    · intro n tbl1 h1
      obtain ⟨tblA, hfA, hcolsA, hsubA, hpureA⟩ := hfind1 n tbl1 h1
      have hstep := hfinda n
      by_cases hc : "pcr_uuid_context" ∈
          actualCols st.conn.current (sanitize_xml_name n)
            ∧ dynTableFilter n = true ∧ n ∈ st.conn.current.tables.map Prod.fst
      · rw [if_pos hc] at hstep
        rw [hfA] at hstep
        cases hf0 : assocFind st.conn.current.tables n with
        | none => rw [hf0] at hstep; cases hstep
        | some tbl0 =>
          rw [hf0] at hstep
          simp only [Option.map_some'] at hstep
          injection hstep with hstep
          refine ⟨tbl0, rfl, ?_, ?_, ?_⟩
          · rw [hcolsA, hstep]
            rfl
          · intro r hr
            have h2 := hsubA r hr
            rw [hstep] at h2
            exact (List.mem_filter.mp h2).1
          · intro v hv hpcr hdyn r hr
            rcases List.mem_cons.mp hv with hv1 | hv1
            · subst hv1
              have h2 := hsubA r hr
              rw [hstep] at h2
              have h3 := (List.mem_filter.mp h2).2
              simp only [Bool.not_eq_eq_eq_not, Bool.not_true, beq_eq_false_iff_ne,
                ne_eq] at h3
              exact h3
            · exact hpureA v hv1 (by rw [hacta]; exact hpcr) hdyn r hr
      · rw [if_neg hc] at hstep
        rw [hfA] at hstep
        refine ⟨tblA, hstep.symm, hcolsA, hsubA, ?_⟩
        intro v hv hpcr hdyn r hr
        rcases List.mem_cons.mp hv with hv1 | hv1
        · subst hv1
          exact absurd ⟨hpcr, hdyn,
            assocFind_mem_keys _ _ _ hstep.symm⟩ hc
        · exact hpureA v hv1 (by rw [hacta]; exact hpcr) hdyn r hr

/-! ## The sanitizer is idempotent (spec P5) -/

theorem char_eq_of_toNat_eq {c d : Char} (h : c.toNat = d.toNat) : c = d :=
  Char.ext (UInt32.ext h)

theorem charToNat_ofNat (n : Nat) (h1 : n < 55296) :
    (Char.ofNat n).toNat = n := by
  rw [Char.ofNat, dif_pos (Or.inl h1)]
  rfl

theorem toLower_toNat (c : Char) : (Char.toLower c).toNat =
    if 65 ≤ c.toNat ∧ c.toNat ≤ 90 then c.toNat + 32 else c.toNat := by
  unfold Char.toLower
  dsimp only
  split
  · rename_i h
    exact charToNat_ofNat _ (by omega)
  · rfl

theorem toLower_eq_self (c : Char) (h : ¬ (65 ≤ c.toNat ∧ c.toNat ≤ 90)) :
    Char.toLower c = c := by
  unfold Char.toLower
  dsimp only
  split
  · rename_i h2
    exact absurd ⟨h2.1, h2.2⟩ h
  · rfl

theorem toLower_idem (c : Char) :
    Char.toLower (Char.toLower c) = Char.toLower c := by
  by_cases h : 65 ≤ c.toNat ∧ c.toNat ≤ 90
  · apply toLower_eq_self
    rw [toLower_toNat, if_pos h]
    omega
  · rw [toLower_eq_self c h, toLower_eq_self c h]

/-- The character classes the sanitizer keeps, as code point ranges. -/
theorem keep_toNat (c : Char) (h : c.isAlpha ∨ c.isDigit ∨ c = '_') :
    (65 ≤ c.toNat ∧ c.toNat ≤ 90) ∨ (97 ≤ c.toNat ∧ c.toNat ≤ 122) ∨
      (48 ≤ c.toNat ∧ c.toNat ≤ 57) ∨ c.toNat = 95 := by
  rcases h with h | h | h
  · simp only [Char.isAlpha, Char.isUpper, Char.isLower, Bool.or_eq_true,
      Bool.and_eq_true, decide_eq_true_eq] at h
    rcases h with h | h
    · exact Or.inl ⟨h.1, h.2⟩
    · exact Or.inr (Or.inl ⟨h.1, h.2⟩)
  · simp only [Char.isDigit, Bool.and_eq_true, decide_eq_true_eq] at h
    exact Or.inr (Or.inr (Or.inl ⟨h.1, h.2⟩))
  · subst h
    exact Or.inr (Or.inr (Or.inr rfl))

theorem toNat_keep (c : Char)
    (h : (97 ≤ c.toNat ∧ c.toNat ≤ 122) ∨ (48 ≤ c.toNat ∧ c.toNat ≤ 57) ∨
      c.toNat = 95 ∨ (65 ≤ c.toNat ∧ c.toNat ≤ 90)) :
    c.isAlpha ∨ c.isDigit ∨ c = '_' := by
  rcases h with h | h | h | h
  · exact Or.inl (by
      simp only [Char.isAlpha, Char.isUpper, Char.isLower, Bool.or_eq_true,
        Bool.and_eq_true, decide_eq_true_eq]
      exact Or.inr ⟨h.1, h.2⟩)
  · exact Or.inr (Or.inl (by
      simp only [Char.isDigit, Bool.and_eq_true, decide_eq_true_eq]
      exact ⟨h.1, h.2⟩))
  · exact Or.inr (Or.inr (char_eq_of_toNat_eq (by rw [h]; rfl)))
  · exact Or.inl (by
      simp only [Char.isAlpha, Char.isUpper, Char.isLower, Bool.or_eq_true,
        Bool.and_eq_true, decide_eq_true_eq]
      exact Or.inl ⟨h.1, h.2⟩)

theorem keep_toLower (c : Char) (h : c.isAlpha ∨ c.isDigit ∨ c = '_') :
    (Char.toLower c).isAlpha ∨ (Char.toLower c).isDigit ∨ Char.toLower c = '_' := by
  apply toNat_keep
  rw [toLower_toNat]
  rcases keep_toNat c h with h1 | h1 | h1 | h1
  · rw [if_pos (by omega)]
    omega
  · rw [if_neg (by omega)]
    omega
  · rw [if_neg (by omega)]
    omega
  · rw [if_neg (by omega)]
    omega

theorem keep_not_space (c : Char) (h : c.isAlpha ∨ c.isDigit ∨ c = '_') :
    isSpaceChar c = false := by
  have hr := keep_toNat c h
  have h1 : c ≠ ' ' := fun he => by rw [he] at hr; simp at hr
  have h2 : c ≠ '\t' := fun he => by rw [he] at hr; simp at hr
  have h3 : c ≠ '\n' := fun he => by rw [he] at hr; simp at hr
  have h4 : c ≠ '\r' := fun he => by rw [he] at hr; simp at hr
  have h5 : c ≠ '\x0b' := fun he => by rw [he] at hr; simp at hr
  have h6 : c ≠ '\x0c' := fun he => by rw [he] at hr; simp at hr
  simp [isSpaceChar, h1, h2, h3, h4, h5, h6]

theorem toLower_underscore_iff (c : Char) :
    Char.toLower c = '_' ↔ c = '_' := by
  constructor
  · intro h
    have h1 : (Char.toLower c).toNat = 95 := by rw [h]; rfl
    rw [toLower_toNat] at h1
    apply char_eq_of_toNat_eq
    show c.toNat = 95
    by_cases h2 : 65 ≤ c.toNat ∧ c.toNat ≤ 90
    · rw [if_pos h2] at h1
      omega
    · rw [if_neg h2] at h1
      exact h1
  · intro h
    subst h
    decide

theorem isDigit_iff (c : Char) :
    c.isDigit = true ↔ 48 ≤ c.toNat ∧ c.toNat ≤ 57 := by
  simp only [Char.isDigit, Bool.and_eq_true, decide_eq_true_eq]
  exact Iff.rfl

theorem toLower_not_digit (c : Char) (h : c.isDigit = false) :
    (Char.toLower c).isDigit = false := by
  rw [Bool.eq_false_iff]
  intro hd
  have h2 := (isDigit_iff _).mp hd
  rw [toLower_toNat] at h2
  have h3 : ¬ (48 ≤ c.toNat ∧ c.toNat ≤ 57) := by
    intro hc
    rw [(isDigit_iff c).mpr hc] at h
    cases h
  by_cases hu : 65 ≤ c.toNat ∧ c.toNat ≤ 90
  · rw [if_pos hu] at h2
    omega
  · rw [if_neg hu] at h2
    exact h3 h2

theorem collapse_false_underscore (rest : List Char) :
    collapseUndAux false ('_' :: rest) = '_' :: collapseUndAux true rest := rfl

theorem collapse_true_underscore (rest : List Char) :
    collapseUndAux true ('_' :: rest) = collapseUndAux true rest := rfl

theorem collapse_cons_ne (b : Bool) (c : Char) (rest : List Char)
    (hc : ¬ c = '_') :
    collapseUndAux b (c :: rest) = c :: collapseUndAux false rest := by
  cases b
  · simp only [collapseUndAux, if_neg hc]
  · simp only [collapseUndAux, if_neg hc]

theorem collapse_fix (l : List Char) :
    collapseUndAux false (collapseUndAux false l) = collapseUndAux false l ∧
    collapseUndAux false (collapseUndAux true l) = collapseUndAux true l ∧
    collapseUndAux true (collapseUndAux true l) = collapseUndAux true l := by
  induction l with
  | nil => exact ⟨rfl, rfl, rfl⟩
  | cons c rest ih =>
    by_cases hc : c = '_'
    · subst hc
      refine ⟨?_, ?_, ?_⟩
      · rw [collapse_false_underscore, collapse_false_underscore, ih.2.2]
      · rw [collapse_true_underscore]
        exact ih.2.1
      · rw [collapse_true_underscore]
        exact ih.2.2
    · refine ⟨?_, ?_, ?_⟩
      · rw [collapse_cons_ne false c rest hc, collapse_cons_ne false c _ hc, ih.1]
      · rw [collapse_cons_ne true c rest hc, collapse_cons_ne false c _ hc, ih.1]
      · rw [collapse_cons_ne true c rest hc, collapse_cons_ne true c _ hc, ih.1]

theorem collapse_map_toLower (b : Bool) (l : List Char) :
    collapseUndAux b (l.map Char.toLower) =
      (collapseUndAux b l).map Char.toLower := by
  induction l generalizing b with
  | nil => rfl
  | cons c rest ih =>
    by_cases hc : c = '_'
    · subst hc
      have hl : Char.toLower '_' = '_' := by decide
      cases b
      · rw [List.map_cons, hl, collapse_false_underscore,
          collapse_false_underscore, ih true, List.map_cons, hl]
      · rw [List.map_cons, hl, collapse_true_underscore,
          collapse_true_underscore, ih true]
    · have hlc : ¬ Char.toLower c = '_' := fun h =>
        hc ((toLower_underscore_iff c).mp h)
      rw [List.map_cons, collapse_cons_ne b _ _ hlc, collapse_cons_ne b c rest hc,
        List.map_cons, ih false]

theorem dropWhile_eq_self_of_all {α : Type} (p : α → Bool) (l : List α)
    (h : ∀ c ∈ l, p c = false) : l.dropWhile p = l := by
  cases l with
  | nil => rfl
  | cons c rest =>
    unfold List.dropWhile
    rw [h c (List.mem_cons_self c rest)]

theorem mem_collapse (b : Bool) (l : List Char) (c : Char)
    (h : c ∈ collapseUndAux b l) : c ∈ l ∨ c = '_' := by
  induction l generalizing b with
  | nil => cases h
  | cons d rest ih =>
    by_cases hd : d = '_'
    · subst hd
      cases b
      · rw [collapse_false_underscore] at h
        rcases List.mem_cons.mp h with h1 | h1
        · exact Or.inr h1
        · rcases ih true h1 with h2 | h2
          · exact Or.inl (List.mem_cons_of_mem _ h2)
          · exact Or.inr h2
      · rw [collapse_true_underscore] at h
        rcases ih true h with h2 | h2
        · exact Or.inl (List.mem_cons_of_mem _ h2)
        · exact Or.inr h2
    · rw [collapse_cons_ne b d rest hd] at h
      rcases List.mem_cons.mp h with h1 | h1
      · exact Or.inl (h1 ▸ List.mem_cons_self d rest)
      · rcases ih false h1 with h2 | h2
        · exact Or.inl (List.mem_cons_of_mem _ h2)
        · exact Or.inr h2

theorem map_ext_on {α β : Type} (f g : α → β) (l : List α)
    (h : ∀ a ∈ l, f a = g a) : l.map f = l.map g := by
  induction l with
  | nil => rfl
  | cons a rest ih =>
    rw [List.map_cons, List.map_cons, h a (List.mem_cons_self a rest),
      ih (fun b hb => h b (List.mem_cons_of_mem _ hb))]

theorem map_id_of_all {α : Type} (f : α → α) (l : List α)
    (h : ∀ a ∈ l, f a = a) : l.map f = l := by
  induction l with
  | nil => rfl
  | cons a rest ih =>
    rw [List.map_cons, h a (List.mem_cons_self a rest),
      ih (fun b hb => h b (List.mem_cons_of_mem _ hb))]

theorem keep_mem_sanRepl (s : String) (c : Char) (h : c ∈ sanRepl s) :
    c.isAlpha ∨ c.isDigit ∨ c = '_' := by
  unfold sanRepl at h
  rcases List.mem_map.mp h with ⟨a, _, ha2⟩
  by_cases hk : a.isAlpha ∨ a.isDigit ∨ a = '_'
  · rw [if_pos hk] at ha2
    exact ha2 ▸ hk
  · rw [if_neg hk] at ha2
    exact Or.inr (Or.inr ha2.symm)

theorem keep_mem_sanPrefixed (s : String) (c : Char) (h : c ∈ sanPrefixed s) :
    c.isAlpha ∨ c.isDigit ∨ c = '_' := by
  unfold sanPrefixed at h
  cases hm : collapseUndAux false (sanRepl s) with
  | nil =>
    rw [hm] at h
    cases h
  | cons c0 rest0 =>
    rw [hm] at h
    dsimp only at h
    have hmem : ∀ d, d ∈ c0 :: rest0 → d.isAlpha ∨ d.isDigit ∨ d = '_' := by
      intro d hd
      rcases mem_collapse false (sanRepl s) d (hm ▸ hd) with h1 | h1
      · exact keep_mem_sanRepl s d h1
      · exact Or.inr (Or.inr h1)
    by_cases hd : c0.isDigit
    · rw [if_pos hd] at h
      rcases List.mem_cons.mp h with h1 | h1
      · exact Or.inr (Or.inr h1)
      · exact hmem c h1
    · rw [if_neg hd] at h
      exact hmem c h

theorem sanPrefixed_collapse_fix (s : String) :
    collapseUndAux false (sanPrefixed s) = sanPrefixed s := by
  unfold sanPrefixed
  cases hm : collapseUndAux false (sanRepl s) with
  | nil => rfl
  | cons c0 rest0 =>
    dsimp only
    have hfix : collapseUndAux false (c0 :: rest0) = c0 :: rest0 := by
      rw [← hm]
      exact (collapse_fix (sanRepl s)).1
    by_cases hd : c0.isDigit
    · rw [if_pos hd]
      have hc0 : ¬ c0 = '_' := by
        intro h1
        rw [h1] at hd
        cases hd
      rw [collapse_cons_ne false c0 rest0 hc0] at hfix
      injection hfix with _ hfix2
      rw [collapse_false_underscore, collapse_cons_ne true c0 rest0 hc0, hfix2]
    · rw [if_neg hd]
      exact hfix

theorem sanPrefixed_head_not_digit (s : String) (c : Char) (rest : List Char)
    (h : sanPrefixed s = c :: rest) : c.isDigit = false := by
  unfold sanPrefixed at h
  cases hm : collapseUndAux false (sanRepl s) with
  | nil =>
    rw [hm] at h
    cases h
  | cons c0 rest0 =>
    rw [hm] at h
    dsimp only at h
    by_cases hd : c0.isDigit
    · rw [if_pos hd] at h
      injection h with h1 _
      rw [← h1]
      decide
    · rw [if_neg hd] at h
      injection h with h1 _
      rw [← h1]
      exact Bool.eq_false_iff.mpr hd

theorem sanitize_mk_fixed (L : List Char)
    (hkeep : ∀ c ∈ L, c.isAlpha ∨ c.isDigit ∨ c = '_')
    (hfix : collapseUndAux false L = L)
    (hhead : ∀ c rest, L = c :: rest → c.isDigit = false)
    (hlower : L.map Char.toLower = L) :
    sanitize_xml_name (String.mk L) = String.mk L := by
  have htrim : sTrim (String.mk L) = String.mk L := by
    unfold sTrim
    have h1 : (String.mk L).data.dropWhile isSpaceChar = L :=
      dropWhile_eq_self_of_all _ _ (fun c hc => keep_not_space c (hkeep c hc))
    rw [h1]
    have h2 : L.reverse.dropWhile isSpaceChar = L.reverse :=
      dropWhile_eq_self_of_all _ _
        (fun c hc => keep_not_space c (hkeep c (List.mem_reverse.mp hc)))
    rw [h2, List.reverse_reverse]
  have hrepl : sanRepl (String.mk L) = L := by
    unfold sanRepl
    rw [htrim]
    exact map_id_of_all _ _ (fun c hc => if_pos (hkeep c hc))
  have hpref : sanPrefixed (String.mk L) = L := by
    unfold sanPrefixed
    rw [hrepl, hfix]
    cases hL : L with
    | nil => rfl
    | cons c0 rest0 =>
      dsimp only
      rw [hhead c0 rest0 hL]
      simp
  unfold sanitize_xml_name
  rw [hpref]
  show String.mk (L.map Char.toLower) = String.mk L
  rw [hlower]

theorem sanitize_idem (s : String) :
    sanitize_xml_name (sanitize_xml_name s) = sanitize_xml_name s := by
  have hout : sanitize_xml_name s =
      String.mk ((sanPrefixed s).map Char.toLower) := rfl
  rw [hout]
  apply sanitize_mk_fixed
  · intro c hc
    rcases List.mem_map.mp hc with ⟨a, ha1, ha2⟩
    exact ha2 ▸ keep_toLower a (keep_mem_sanPrefixed s a ha1)
  · rw [collapse_map_toLower, sanPrefixed_collapse_fix]
  · intro c rest h
    cases hL : sanPrefixed s with
    | nil =>
      rw [hL] at h
      cases h
    | cons d drest =>
      rw [hL, List.map_cons] at h
      injection h with h1 _
      rw [← h1]
      exact toLower_not_digit d (sanPrefixed_head_not_digit s d drest hL)
  · rw [List.map_map]
    exact map_ext_on _ _ _ (fun a _ => toLower_idem a)

/-! ## Characterization of the schema reconciler -/

theorem sLower_idem (s : String) : sLower (sLower s) = sLower s := by
  unfold sLower
  show String.mk ((s.data.map Char.toLower).map Char.toLower) = _
  rw [List.map_map]
  exact congrArg String.mk (map_ext_on _ _ _ (fun a _ => toLower_idem a))

theorem sLower_sanitize (s : String) :
    sLower (sanitize_xml_name s) = sanitize_xml_name s := by
  unfold sanitize_xml_name
  exact sLower_idem _

theorem getTableColumns_trace (st : St) (n : String) :
    (getTableColumns st n).2.trace = st.trace := by
  unfold getTableColumns
  dsimp only
  split <;> rfl

theorem assocSet_keys {α : Type} (l : List (String × α)) (k : String) (v : α) :
    (assocSet l k v).map Prod.fst =
      if k ∈ l.map Prod.fst then l.map Prod.fst else l.map Prod.fst ++ [k] := by
  induction l with
  | nil => simp [assocSet]
  | cons hd tl ih =>
    obtain ⟨k1, v1⟩ := hd
    unfold assocSet
    by_cases hk : k1 = k
    · subst hk
      rw [if_pos rfl]
      simp
    · rw [if_neg hk]
      simp only [List.map_cons, ih]
      by_cases hm : k ∈ tl.map Prod.fst
      · rw [if_pos hm, if_pos (by simp [hm])]
      · rw [if_neg hm, if_neg (by
          simp only [List.mem_cons]
          rintro (h1 | h1)
          · exact hk h1.symm
          · exact hm h1)]
        rfl

theorem assocSet_keysOK {α : Type} (l : List (String × α)) (k : String) (v : α)
    (h : (l.map Prod.fst).Nodup) : ((assocSet l k v).map Prod.fst).Nodup := by
  rw [assocSet_keys]
  by_cases hm : k ∈ l.map Prod.fst
  · rw [if_pos hm]
    exact h
  · rw [if_neg hm]
    simp [List.nodup_append, h, hm]

theorem assocSet_mem_key_eq {α : Type} (l : List (String × α)) (k : String)
    (v : α) (hnd : (l.map Prod.fst).Nodup) (e : String × α)
    (he : e ∈ assocSet l k v) (hk : e.1 = k) : e = (k, v) := by
  induction l with
  | nil =>
    unfold assocSet at he
    exact List.mem_singleton.mp he
  | cons hd tl ih =>
    obtain ⟨k1, v1⟩ := hd
    unfold assocSet at he
    simp only [List.map_cons, List.nodup_cons] at hnd
    by_cases hk1 : k1 = k
    · subst hk1
      rw [if_pos rfl] at he
      rcases List.mem_cons.mp he with h1 | h1
      · exact h1
      · exact absurd (hk ▸ List.mem_map.mpr ⟨e, h1, rfl⟩) hnd.1
    · rw [if_neg hk1] at he
      rcases List.mem_cons.mp he with h1 | h1
      · exact absurd (by rw [h1] at hk; exact hk) hk1
      · exact ih hnd.2 h1

theorem getTableColumns_cacheKeysOK (st : St) (n : String)
    (h : cacheKeysOK st) : cacheKeysOK (getTableColumns st n).2 := by
  unfold getTableColumns
  dsimp only
  cases hc : assocFind st.cache (sanitize_xml_name n) with
  | some cols => exact h
  | none =>
    constructor
    · intro e he
      rcases assocSet_mem _ _ _ _ he with h1 | h1
      · rw [h1]
        exact sLower_sanitize n
      · exact h.1 e h1
    · exact assocSet_keysOK _ _ _ h.2

theorem missingAttrCols_spec (attrs : List (String × String)) :
    ∀ cur : List String,
      (missingAttrCols attrs cur).Nodup ∧
      (∀ c ∈ missingAttrCols attrs cur, c ∉ cur ∧ c ∉ commonColsList) := by
  induction attrs with
  | nil =>
    intro cur
    exact ⟨List.nodup_nil, fun c hc => absurd hc (by simp [missingAttrCols])⟩
  | cons kv rest ih =>
    intro cur
    unfold missingAttrCols
    by_cases hs : sLower (sanitize_xml_name kv.1) ∈ cur ∨
        sLower (sanitize_xml_name kv.1) ∈ commonColsList
    · rw [if_pos hs]
      exact ih cur
    · rw [if_neg hs]
      obtain ⟨ihn, ihm⟩ := ih (sLower (sanitize_xml_name kv.1) :: cur)
      constructor
      · refine List.Nodup.cons ?_ ihn
        intro hmem
        exact (ihm _ hmem).1 (List.mem_cons_self _ _)
      · intro c hc
        rcases List.mem_cons.mp hc with h1 | h1
        · subst h1
          exact ⟨fun h2 => hs (Or.inl h2), fun h2 => hs (Or.inr h2)⟩
        · have h2 := ihm c h1
          exact ⟨fun h3 => h2.1 (List.mem_cons_of_mem _ h3), h2.2⟩

theorem dbAddColumn_eq (db : DBState) (t c : String) (tbl : Table)
    (hf : assocFind db.tables t = some tbl) (hc : c ∉ tbl.columns) :
    dbAddColumn db t c =
      some (dbUpdateTable db t
        (fun tbl1 => { tbl1 with columns := tbl1.columns ++ [c] })) := by
  unfold dbAddColumn
  rw [hf]
  dsimp only
  rw [if_neg hc]

theorem noEmptyTables_updAppend (db : DBState) (t : String) (cs : List String)
    (h : noEmptyTables db) :
    noEmptyTables (dbUpdateTable db t
      (fun tbl => { tbl with columns := tbl.columns ++ cs })) := by
  intro e he
  unfold dbUpdateTable at he
  dsimp only at he
  rcases List.mem_map.mp he with ⟨nt, hnt, hee⟩
  by_cases ht : nt.1 = t
  · rw [if_pos ht] at hee
    rw [← hee]
    dsimp only
    intro hcon
    exact h nt hnt (List.append_eq_nil.mp hcon).1
  · rw [if_neg ht] at hee
    rw [← hee]
    exact h nt hnt

/-- One pass of the `ADD COLUMN` loop in a fault-free, catalogue-accurate
state: every missing column is added in order, the trace grows by exactly
the `ALTER` statements, and nothing else changes. -/
theorem alterLoop_ok (f : Faults) (haf : f.addColumnFaults = [])
    (raw : String) (hlraw : sLower raw = raw) (cs : List String) :
    ∀ (st : St) (tbl : Table),
      assocFind st.conn.current.tables raw = some tbl →
      assocFind st.cache raw = some tbl.columns →
      cacheAccurate st → cacheKeysOK st →
      cs.Nodup → (∀ c ∈ cs, c ∉ tbl.columns) →
      ∃ st1 tbl1,
        alterLoop f raw raw cs st = st1 ∧
        assocFind st1.conn.current.tables raw = some tbl1 ∧
        tbl1.columns = tbl.columns ++ cs ∧
        tbl1.rows = tbl.rows ∧
        tbl1.comment = tbl.comment ∧
        assocFind st1.cache raw = some tbl1.columns ∧
        cacheAccurate st1 ∧ cacheKeysOK st1 ∧
        st1.conn.committed = st.conn.committed ∧
        st1.conn.current.constraints = st.conn.current.constraints ∧
        st1.conn.current.audit = st.conn.current.audit ∧
        (∀ n, ¬ n = raw →
          assocFind st1.conn.current.tables n =
            assocFind st.conn.current.tables n) ∧
        (noEmptyTables st.conn.current → noEmptyTables st1.conn.current) ∧
        st1.trace = st.trace ++ cs.map (fun c => Stmt.addColumn raw c) := by
  induction cs with
  | nil =>
    intro st tbl hft hfc hacc hkeys _ _
    exact ⟨st, tbl, rfl, hft, by simp, rfl, rfl, hfc, hacc, hkeys, rfl, rfl,
      rfl, fun n _ => rfl, fun h => h, by simp⟩
  | cons c rest ih =>
    intro st tbl hft hfc hacc hkeys hnd hnotin
    have hcnotin : c ∉ tbl.columns := hnotin c (List.mem_cons_self c rest)
    have hadd := dbAddColumn_eq st.conn.current raw c tbl hft hcnotin
    simp only [alterLoop]
    rw [if_neg (by rw [haf]; simp), hadd]
    set stb : St :=
      { st with
        conn := { st.conn with
          current := dbUpdateTable st.conn.current raw
            (fun tbl1 => { tbl1 with columns := tbl1.columns ++ [c] }) },
        cache := cacheAdd st.cache raw c,
        trace := st.trace ++ [.addColumn raw c] } with hstb
    have hftb : assocFind stb.conn.current.tables raw =
        some { tbl with columns := tbl.columns ++ [c] } := by
      rw [hstb]
      dsimp only
      rw [assocFind_dbUpdateTable, if_pos rfl, hft]
      rfl
    have hcacheb : stb.cache = assocSet st.cache raw (tbl.columns ++ [c]) := by
      rw [hstb]
      dsimp only
      unfold cacheAdd
      rw [hfc]
    have hfcb : assocFind stb.cache raw = some (tbl.columns ++ [c]) := by
      rw [hcacheb, assocFind_assocSet, if_pos rfl]
    have haccb : cacheAccurate stb := by
      intro e he
      rw [hcacheb] at he
      rcases assocSet_mem _ _ _ _ he with h1 | h1
      · rw [h1]
        show tbl.columns ++ [c] = actualCols stb.conn.current raw
        unfold actualCols
        rw [hlraw, hftb]
      · have h2 := hacc e h1
        have h3 := hkeys.1 e h1
        by_cases h4 : sLower e.1 = raw
        · have h5 : e.1 = raw := by rw [← h3, h4]
          have h6 : e = (raw, tbl.columns ++ [c]) :=
            assocSet_mem_key_eq _ _ _ hkeys.2 e (hcacheb ▸ he) h5
          rw [h6]
          show tbl.columns ++ [c] = actualCols stb.conn.current raw
          unfold actualCols
          rw [hlraw, hftb]
        · rw [h2]
          unfold actualCols
          rw [hstb]
          dsimp only
          rw [assocFind_dbUpdateTable, if_neg h4]
    have hkeysb : cacheKeysOK stb := by
      constructor
      · intro e he
        rw [hcacheb] at he
        rcases assocSet_mem _ _ _ _ he with h1 | h1
        · rw [h1]
          exact hlraw
        · exact hkeys.1 e h1
      · rw [hcacheb]
        exact assocSet_keysOK _ _ _ hkeys.2
    obtain ⟨st1, tbl1, hrun, hft1, hcols1, hrows1, hcmt1, hfc1, hacc1, hkeys1,
      hcom1, hcons1, haud1, hoth1, hnoem1, htr1⟩ :=
      ih stb { tbl with columns := tbl.columns ++ [c] } hftb hfcb haccb hkeysb
        (List.Nodup.of_cons hnd)
        (by
          intro d hd
          simp only [List.mem_append, List.mem_singleton]
          rintro (h1 | h1)
          · exact (hnotin d (List.mem_cons_of_mem _ hd)) h1
          · rw [h1] at hd
            exact (List.nodup_cons.mp hnd).1 hd)
    refine ⟨st1, tbl1, hrun, hft1, ?_, by rw [hrows1], by rw [hcmt1], hfc1,
      hacc1, hkeys1, ?_, ?_, ?_, ?_, ?_, ?_⟩
    · rw [hcols1]
      simp
    · rw [hcom1, hstb]
    · rw [hcons1, hstb]
      rfl
    · rw [haud1, hstb]
      rfl
    · intro n hn
      rw [hoth1 n hn, hstb]
      dsimp only
      rw [assocFind_dbUpdateTable, if_neg hn]
    · intro h
      apply hnoem1
      rw [hstb]
      exact noEmptyTables_updAppend st.conn.current raw [c] h
    · rw [htr1, hstb]
      simp



/-! ## Characterization of `ensure_table_and_columns` -/

theorem assocFind_append {α : Type} (l1 l2 : List (String × α)) (j : String) :
    assocFind (l1 ++ l2) j =
      match assocFind l1 j with
      | some v => some v
      | none => assocFind l2 j := by
  induction l1 with
  | nil => rfl
  | cons hd tl ih =>
    obtain ⟨k1, v1⟩ := hd
    simp only [List.cons_append, assocFind]
    by_cases hk : k1 = j
    · simp only [if_pos hk]
    · simp only [if_neg hk]
      exact ih

theorem attrCreateCols_mem (attrs : List (String × String)) :
    ∀ seen, ∀ kv ∈ attrs,
      sLower (sanitize_xml_name kv.1) ∈ seen ∨
      sLower (sanitize_xml_name kv.1) ∈ attrCreateCols attrs seen := by
  induction attrs with
  | nil =>
    intro seen kv hkv
    cases hkv
  | cons hd rest ih =>
    intro seen kv hkv
    obtain ⟨k, v⟩ := hd
    unfold attrCreateCols
    dsimp only
    by_cases hs : sLower (sanitize_xml_name k) ∈ seen
    · rw [if_pos hs]
      rcases List.mem_cons.mp hkv with h1 | h1
      · subst h1
        exact Or.inl hs
      · exact ih seen kv h1
    · rw [if_neg hs]
      rcases List.mem_cons.mp hkv with h1 | h1
      · subst h1
        exact Or.inr (List.mem_cons_self _ _)
      · rcases ih (sLower (sanitize_xml_name k) :: seen) kv h1 with h2 | h2
        · rcases List.mem_cons.mp h2 with h3 | h3
          · exact Or.inr (by rw [h3]; exact List.mem_cons_self _ _)
          · exact Or.inl h3
        · exact Or.inr (List.mem_cons_of_mem _ h2)

theorem missingAttrCols_covers (attrs : List (String × String)) :
    ∀ cur, ∀ kv ∈ attrs,
      sLower (sanitize_xml_name kv.1) ∈ cur ∨
      sLower (sanitize_xml_name kv.1) ∈ commonColsList ∨
      sLower (sanitize_xml_name kv.1) ∈ missingAttrCols attrs cur := by
  induction attrs with
  | nil =>
    intro cur kv hkv
    cases hkv
  | cons hd rest ih =>
    intro cur kv hkv
    obtain ⟨k, v⟩ := hd
    unfold missingAttrCols
    dsimp only
    by_cases hs : sLower (sanitize_xml_name k) ∈ cur ∨
        sLower (sanitize_xml_name k) ∈ commonColsList
    · rw [if_pos hs]
      rcases List.mem_cons.mp hkv with h1 | h1
      · subst h1
        rcases hs with h2 | h2
        · exact Or.inl h2
        · exact Or.inr (Or.inl h2)
      · exact ih cur kv h1
    · rw [if_neg hs]
      rcases List.mem_cons.mp hkv with h1 | h1
      · subst h1
        exact Or.inr (Or.inr (List.mem_cons_self _ _))
      · rcases ih (sLower (sanitize_xml_name k) :: cur) kv h1 with h2 | h2 | h2
        · rcases List.mem_cons.mp h2 with h3 | h3
          · exact Or.inr (Or.inr (by rw [h3]; exact List.mem_cons_self _ _))
          · exact Or.inl h3
        · exact Or.inr (Or.inl h2)
        · exact Or.inr (Or.inr (List.mem_cons_of_mem _ h2))

theorem missingAttrCols_nil (attrs : List (String × String)) :
    ∀ cur, (∀ kv ∈ attrs, sLower (sanitize_xml_name kv.1) ∈ cur ∨
      sLower (sanitize_xml_name kv.1) ∈ commonColsList) →
    missingAttrCols attrs cur = [] := by
  induction attrs with
  | nil =>
    intro cur _
    rfl
  | cons hd rest ih =>
    intro cur h
    obtain ⟨k, v⟩ := hd
    unfold missingAttrCols
    dsimp only
    rw [if_pos (h (k, v) (List.mem_cons_self _ _))]
    exact ih cur (fun kv hkv => h kv (List.mem_cons_of_mem _ hkv))

theorem getTableColumns_cached (st : St) (n : String) :
    assocFind (getTableColumns st n).2.cache (sanitize_xml_name n) =
      some (getTableColumns st n).1 := by
  unfold getTableColumns
  dsimp only
  cases hc : assocFind st.cache (sanitize_xml_name n) with
  | some cols => exact hc
  | none =>
    dsimp only
    rw [assocFind_assocSet, if_pos rfl]

theorem getTableColumns_hit (st : St) (n : String) (cols : List String)
    (h : assocFind st.cache (sanitize_xml_name n) = some cols) :
    getTableColumns st n = (cols, st) := by
  unfold getTableColumns
  dsimp only
  rw [h]

/-- `ensure_table_and_columns` on a table that does not yet exist: the
`CREATE TABLE` path, with the exact created column set. -/
theorem ensure_ok_create (f : Faults) (suggestion raw : String)
    (hraw : sanitize_xml_name suggestion = raw) (hne : ¬ raw = "")
    (hcf : raw ∉ f.createFaults)
    (attrs : List (String × String)) (st : St)
    (hacc : cacheAccurate st) (hkeys : cacheKeysOK st)
    (hnone : assocFind st.conn.current.tables raw = none) :
    ∃ st3,
      ensureTableAndColumns f st suggestion attrs =
        ((some raw, commonColsList ++ attrCreateCols attrs commonColsList), st3) ∧
      assocFind st3.conn.current.tables raw =
        some { columns := commonColsList ++ attrCreateCols attrs commonColsList,
               rows := [],
               comment := match attrs.find? (fun kv => kv.1 == "element_path") with
                          | some kv => some kv.2
                          | none => none } ∧
      cacheAccurate st3 ∧ cacheKeysOK st3 ∧
      (noEmptyTables st.conn.current → noEmptyTables st3.conn.current) ∧
      st3.conn.committed = st.conn.committed ∧
      st3.conn.current.constraints = st.conn.current.constraints ∧
      st3.conn.current.audit = st.conn.current.audit ∧
      (∀ n, ¬ n = raw →
        assocFind st3.conn.current.tables n = assocFind st.conn.current.tables n) ∧
      st3.trace = st.trace ++ [Stmt.createTable raw] := by
  have hlraw : sLower raw = raw := by
    rw [← hraw]
    exact sLower_sanitize suggestion
  have hsraw : sanitize_xml_name raw = raw := by
    rw [← hraw]
    exact sanitize_idem suggestion
  have hcs1 : (getTableColumns st raw).1 = [] := by
    rw [getTableColumns_fst st raw hacc, hsraw]
    unfold actualCols
    rw [hlraw, hnone]
  have hconn1 : (getTableColumns st raw).2.conn = st.conn :=
    getTableColumns_conn st raw
  have htr1 : (getTableColumns st raw).2.trace = st.trace :=
    getTableColumns_trace st raw
  have hacc1 : cacheAccurate (getTableColumns st raw).2 :=
    getTableColumns_cacheAccurate st raw hacc
  have hkeys1 : cacheKeysOK (getTableColumns st raw).2 :=
    getTableColumns_cacheKeysOK st raw hkeys
  have hec : ensureCreate f (getTableColumns st raw).2 raw raw attrs
      ((getTableColumns st raw).1) = some
      { (getTableColumns st raw).2 with
        conn := { (getTableColumns st raw).2.conn with
          current := dbCreateTable (getTableColumns st raw).2.conn.current raw
            (commonColsList ++ attrCreateCols attrs commonColsList)
            (match attrs.find? (fun kv => kv.1 == "element_path") with
             | some kv => some kv.2
             | none => none) },
        cache := assocSet (getTableColumns st raw).2.cache raw
          (commonColsList ++ attrCreateCols attrs commonColsList),
        trace := (getTableColumns st raw).2.trace ++ [.createTable raw] } := by
    rw [hcs1]
    unfold ensureCreate
    rw [if_pos (show ([] : List String).isEmpty = true from rfl), if_neg hcf]
  have hdbc : dbCreateTable (getTableColumns st raw).2.conn.current raw
      (commonColsList ++ attrCreateCols attrs commonColsList)
      (match attrs.find? (fun kv => kv.1 == "element_path") with
       | some kv => some kv.2
       | none => none) =
      { st.conn.current with
        tables := st.conn.current.tables ++
          [(raw, { columns := commonColsList ++ attrCreateCols attrs commonColsList,
                   rows := [],
                   comment := match attrs.find? (fun kv => kv.1 == "element_path") with
                              | some kv => some kv.2
                              | none => none })] } := by
    unfold dbCreateTable
    rw [hconn1, hnone]
  have hfindnew : assocFind ({ st.conn.current with
      tables := st.conn.current.tables ++
        [(raw, { columns := commonColsList ++ attrCreateCols attrs commonColsList,
                 rows := [],
                 comment := match attrs.find? (fun kv => kv.1 == "element_path") with
                            | some kv => some kv.2
                            | none => none })] } : DBState).tables raw =
      some { columns := commonColsList ++ attrCreateCols attrs commonColsList,
             rows := [],
             comment := match attrs.find? (fun kv => kv.1 == "element_path") with
                        | some kv => some kv.2
                        | none => none } := by
    dsimp only
    rw [assocFind_append, hnone]
    unfold assocFind
    rw [if_pos rfl]
  have hfind2 : assocFind (assocSet (getTableColumns st raw).2.cache raw
      (commonColsList ++ attrCreateCols attrs commonColsList)) raw =
      some (commonColsList ++ attrCreateCols attrs commonColsList) := by
    rw [assocFind_assocSet, if_pos rfl]
  refine ⟨{ (getTableColumns st raw).2 with
      conn := { (getTableColumns st raw).2.conn with
        current := dbCreateTable (getTableColumns st raw).2.conn.current raw
          (commonColsList ++ attrCreateCols attrs commonColsList)
          (match attrs.find? (fun kv => kv.1 == "element_path") with
           | some kv => some kv.2
           | none => none) },
      cache := assocSet (getTableColumns st raw).2.cache raw
        (commonColsList ++ attrCreateCols attrs commonColsList),
      trace := (getTableColumns st raw).2.trace ++ [.createTable raw] },
    ?_, ?_, ?_, ?_, ?_, ?_, ?_, ?_, ?_, ?_⟩
  case refine_1 =>
    unfold ensureTableAndColumns
    dsimp only
    rw [hraw, if_neg hne, hlraw, hec]
    dsimp only
    have heq2 : getTableColumns
        { (getTableColumns st raw).2 with
          conn := { (getTableColumns st raw).2.conn with
            current := dbCreateTable (getTableColumns st raw).2.conn.current raw
              (commonColsList ++ attrCreateCols attrs commonColsList)
              (match attrs.find? (fun kv => kv.1 == "element_path") with
               | some kv => some kv.2
               | none => none) },
          cache := assocSet (getTableColumns st raw).2.cache raw
            (commonColsList ++ attrCreateCols attrs commonColsList),
          trace := (getTableColumns st raw).2.trace ++ [.createTable raw] } raw =
        ((commonColsList ++ attrCreateCols attrs commonColsList),
         { (getTableColumns st raw).2 with
           conn := { (getTableColumns st raw).2.conn with
             current := dbCreateTable (getTableColumns st raw).2.conn.current raw
               (commonColsList ++ attrCreateCols attrs commonColsList)
               (match attrs.find? (fun kv => kv.1 == "element_path") with
                | some kv => some kv.2
                | none => none) },
           cache := assocSet (getTableColumns st raw).2.cache raw
             (commonColsList ++ attrCreateCols attrs commonColsList),
           trace := (getTableColumns st raw).2.trace ++ [.createTable raw] }) := by
      apply getTableColumns_hit
      rw [hsraw]
      dsimp only
      exact hfind2
    rw [heq2]
    dsimp only
    rw [missingAttrCols_nil attrs _ (fun kv hkv => by
      rcases attrCreateCols_mem attrs commonColsList kv hkv with h1 | h1
      · exact Or.inr h1
      · exact Or.inl (List.mem_append.mpr (Or.inr h1)))]
    simp only [alterLoop]
    rw [heq2]
  case refine_2 =>
    dsimp only
    rw [hdbc]
    exact hfindnew
  case refine_3 =>
    intro e he
    dsimp only at he
    rcases assocSet_mem _ _ _ _ he with h1 | h1
    · rw [h1]
      show commonColsList ++ attrCreateCols attrs commonColsList = actualCols _ raw
      unfold actualCols
      dsimp only
      rw [hlraw, hdbc, hfindnew]
    · have h3 := hkeys1.1 e h1
      by_cases h4 : sLower e.1 = raw
      · have h5 : e.1 = raw := by rw [← h3, h4]
        have h6 := assocSet_mem_key_eq _ _ _ hkeys1.2 e he h5
        rw [h6]
        show commonColsList ++ attrCreateCols attrs commonColsList = actualCols _ raw
        unfold actualCols
        dsimp only
        rw [hlraw, hdbc, hfindnew]
      · have h2 := hacc1 e h1
        rw [h2]
        unfold actualCols
        dsimp only
        rw [hdbc]
        dsimp only
        rw [assocFind_append]
        cases hf5 : assocFind st.conn.current.tables (sLower e.1) with
        | some v =>
          rw [hconn1, hf5]
        | none =>
          rw [hconn1, hf5]
          unfold assocFind
          rw [if_neg (fun h => h4 h.symm)]
          rfl
  case refine_4 =>
    constructor
    · intro e he
      dsimp only at he
      rcases assocSet_mem _ _ _ _ he with h1 | h1
      · rw [h1]
        exact hlraw
      · exact hkeys1.1 e h1
    · dsimp only
      exact assocSet_keysOK _ _ _ hkeys1.2
  case refine_5 =>
    intro h
    dsimp only
    rw [hdbc]
    intro e he
    dsimp only at he
    rcases List.mem_append.mp he with h1 | h1
    · exact h e h1
    · rw [List.mem_singleton.mp h1]
      simp [commonColsList]
  case refine_6 =>
    dsimp only
    rw [hconn1]
  case refine_7 =>
    dsimp only
    rw [hdbc]
  case refine_8 =>
    dsimp only
    rw [hdbc]
  case refine_9 =>
    intro n hn
    dsimp only
    rw [hdbc]
    dsimp only
    rw [assocFind_append]
    cases hf5 : assocFind st.conn.current.tables n with
    | some v => rfl
    | none =>
      unfold assocFind
      rw [if_neg (fun h => hn h.symm)]
      rfl
  case refine_10 =>
    dsimp only
    rw [htr1]

/-- `ensure_table_and_columns` on an existing table: missing attribute
columns are appended via `ALTER TABLE ADD COLUMN`, rows are untouched. -/
theorem ensure_ok_existing (f : Faults) (haf : f.addColumnFaults = [])
    (suggestion raw : String)
    (hraw : sanitize_xml_name suggestion = raw) (hne : ¬ raw = "")
    (attrs : List (String × String)) (st : St) (tbl : Table)
    (hacc : cacheAccurate st) (hkeys : cacheKeysOK st)
    (htbl : assocFind st.conn.current.tables raw = some tbl)
    (hnecols : ¬ tbl.columns = []) :
    ∃ st3 tbl3,
      ensureTableAndColumns f st suggestion attrs =
        ((some raw, tbl.columns ++ missingAttrCols attrs tbl.columns), st3) ∧
      assocFind st3.conn.current.tables raw = some tbl3 ∧
      tbl3.columns = tbl.columns ++ missingAttrCols attrs tbl.columns ∧
      tbl3.rows = tbl.rows ∧
      cacheAccurate st3 ∧ cacheKeysOK st3 ∧
      (noEmptyTables st.conn.current → noEmptyTables st3.conn.current) ∧
      st3.conn.committed = st.conn.committed ∧
      st3.conn.current.constraints = st.conn.current.constraints ∧
      st3.conn.current.audit = st.conn.current.audit ∧
      (∀ n, ¬ n = raw →
        assocFind st3.conn.current.tables n = assocFind st.conn.current.tables n) ∧
      st3.trace = st.trace ++ (missingAttrCols attrs tbl.columns).map
        (fun c => Stmt.addColumn raw c) := by
  have hlraw : sLower raw = raw := by
    rw [← hraw]
    exact sLower_sanitize suggestion
  have hsraw : sanitize_xml_name raw = raw := by
    rw [← hraw]
    exact sanitize_idem suggestion
  have hcs1 : (getTableColumns st raw).1 = tbl.columns := by
    rw [getTableColumns_fst st raw hacc, hsraw]
    unfold actualCols
    rw [hlraw, htbl]
  have hconn1 : (getTableColumns st raw).2.conn = st.conn :=
    getTableColumns_conn st raw
  have htr1 : (getTableColumns st raw).2.trace = st.trace :=
    getTableColumns_trace st raw
  have hacc1 : cacheAccurate (getTableColumns st raw).2 :=
    getTableColumns_cacheAccurate st raw hacc
  have hkeys1 : cacheKeysOK (getTableColumns st raw).2 :=
    getTableColumns_cacheKeysOK st raw hkeys
  have hcached1 : assocFind (getTableColumns st raw).2.cache raw =
      some tbl.columns := by
    have h := getTableColumns_cached st raw
    rw [hsraw, hcs1] at h
    exact h
  have hempty1 : ((getTableColumns st raw).1).isEmpty = false := by
    rw [hcs1]
    cases hc : tbl.columns with
    | nil => exact absurd hc hnecols
    | cons a as => rfl
  have hec : ensureCreate f (getTableColumns st raw).2 raw raw attrs
      ((getTableColumns st raw).1) = some ((getTableColumns st raw).2) := by
    unfold ensureCreate
    rw [if_neg (by
      intro h
      rw [hempty1] at h
      exact Bool.false_ne_true h)]
  have hft1 : assocFind (getTableColumns st raw).2.conn.current.tables raw =
      some tbl := by
    rw [hconn1]
    exact htbl
  obtain ⟨hndm, hmemm⟩ := missingAttrCols_spec attrs tbl.columns
  obtain ⟨st3, tbl3, hrun, hft3, hcols3, hrows3, hcmt3, hfc3, hacc3, hkeys3,
    hcom3, hcons3, haud3, hoth3, hnoem3, htr3⟩ :=
    alterLoop_ok f haf raw hlraw (missingAttrCols attrs tbl.columns)
      (getTableColumns st raw).2 tbl hft1 hcached1 hacc1 hkeys1 hndm
      (fun c hc => (hmemm c hc).1)
  have heq2 : getTableColumns (getTableColumns st raw).2 raw =
      (tbl.columns, (getTableColumns st raw).2) := by
    apply getTableColumns_hit
    rw [hsraw]
    exact hcached1
  have heq3 : getTableColumns st3 raw = (tbl3.columns, st3) := by
    apply getTableColumns_hit
    rw [hsraw]
    exact hfc3
  refine ⟨st3, tbl3, ?_, hft3, hcols3, hrows3, hacc3, hkeys3, ?_, ?_, ?_, ?_,
    ?_, ?_⟩
  case refine_1 =>
    unfold ensureTableAndColumns
    dsimp only
    rw [hraw, if_neg hne, hlraw, hec]
    dsimp only
    rw [heq2]
    dsimp only
    rw [hrun, heq3]
    dsimp only
    rw [hcols3]
  case refine_2 =>
    intro h
    exact hnoem3 (by rw [hconn1]; exact h)
  case refine_3 =>
    rw [hcom3, hconn1]
  case refine_4 =>
    rw [hcons3, hconn1]
  case refine_5 =>
    rw [haud3, hconn1]
  case refine_6 =>
    intro n hn
    rw [hoth3 n hn, hconn1]
  case refine_7 =>
    rw [htr3, htr1]


/-! ## Trace shape of the overwrite phase -/

theorem deleteLoop_trace (f : Faults) (u : String) :
    ∀ ns st st1, deleteLoop f u ns st = .ok st1 →
      ∃ tr, st1.trace = st.trace ++ tr ∧ ∀ s ∈ tr, isDeleteStmt s = true := by
  intro ns
  induction ns with
  | nil =>
    intro st st1 h
    cases h
    exact ⟨[], by simp, fun s hs => absurd hs (by simp)⟩
  | cons n rest ih =>
    intro st st1 h
    simp only [deleteLoop] at h
    by_cases hp : "pcr_uuid_context" ∈ (getTableColumns st n).1
    · rw [if_pos hp] at h
      by_cases hfa : (n, u) ∈ f.deleteFaults
      · rw [if_pos hfa] at h
        cases h
      · rw [if_neg hfa] at h
        obtain ⟨tr, htr, hall⟩ := ih _ _ h
        refine ⟨Stmt.delete n u :: tr, ?_, ?_⟩
        · rw [htr]
          dsimp only
          rw [getTableColumns_trace]
          simp
        · intro s hs
          rcases List.mem_cons.mp hs with h1 | h1
          · rw [h1]
            rfl
          · exact hall s h1
    · rw [if_neg hp] at h
      obtain ⟨tr, htr, hall⟩ := ih _ _ h
      refine ⟨tr, ?_, hall⟩
      rw [htr, getTableColumns_trace]

theorem deleteExisting_trace (f : Faults) (p : Option String) :
    ∀ st st1, deleteExistingPcrData f st p = .ok st1 →
      ∃ tr, st1.trace = st.trace ++ tr ∧ ∀ s ∈ tr, isDeleteStmt s = true := by
  intro st st1 h
  unfold deleteExistingPcrData at h
  by_cases hb : optTruthy p = false
  · rw [if_pos hb] at h
    cases h
    exact ⟨[], by simp, fun s hs => absurd hs (by simp)⟩
  · rw [if_neg hb] at h
    cases p with
    | none =>
      cases h
      exact ⟨[], by simp, fun s hs => absurd hs (by simp)⟩
    | some u =>
      dsimp only at h
      by_cases he : f.enumTablesFault = true
      · rw [if_pos he] at h
        cases h
      · rw [if_neg he] at h
        exact deleteLoop_trace f u _ st st1 h

theorem deletePhase_trace (f : Faults) :
    ∀ us st st1, deletePhase f us st = .ok st1 →
      ∃ tr, st1.trace = st.trace ++ tr ∧ ∀ s ∈ tr, isDeleteStmt s = true := by
  intro us
  induction us with
  | nil =>
    intro st st1 h
    cases h
    exact ⟨[], by simp, fun s hs => absurd hs (by simp)⟩
  | cons u rest ih =>
    intro st st1 h
    simp only [deletePhase] at h
    cases hd : deleteExistingPcrData f st (some u) with
    | error sa => rw [hd] at h; cases h
    | ok sa =>
      rw [hd] at h
      obtain ⟨tr1, htr1, hall1⟩ := deleteExisting_trace f (some u) st sa hd
      obtain ⟨tr2, htr2, hall2⟩ := ih sa st1 h
      refine ⟨tr1 ++ tr2, ?_, ?_⟩
      · rw [htr2, htr1, List.append_assoc]
      · intro s hs
        rcases List.mem_append.mp hs with h1 | h1
        · exact hall1 s h1
        · exact hall2 s h1

/-! ## The reconciler on failure paths -/

theorem ensure_empty (f : Faults) (st : St) (suggestion : String)
    (attrs : List (String × String)) (hs : sanitize_xml_name suggestion = "") :
    ensureTableAndColumns f st suggestion attrs = ((none, []), st) := by
  unfold ensureTableAndColumns
  dsimp only
  rw [hs, if_pos rfl]

theorem ensure_create_fail (f : Faults) (st : St) (suggestion raw : String)
    (attrs : List (String × String))
    (hraw : sanitize_xml_name suggestion = raw) (hne : ¬ raw = "")
    (hacc : cacheAccurate st)
    (hnone : assocFind st.conn.current.tables raw = none)
    (hcf : raw ∈ f.createFaults) :
    (ensureTableAndColumns f st suggestion attrs).1.1 = none := by
  have hlraw : sLower raw = raw := by
    rw [← hraw]
    exact sLower_sanitize suggestion
  have hcs1 : (getTableColumns st raw).1 = [] := by
    rw [getTableColumns_fst st raw hacc]
    rw [← hraw, sanitize_idem, hraw]
    unfold actualCols
    rw [hlraw, hnone]
  have hec : ensureCreate f (getTableColumns st raw).2 raw raw attrs
      ((getTableColumns st raw).1) = none := by
    rw [hcs1]
    unfold ensureCreate
    rw [if_pos (show ([] : List String).isEmpty = true from rfl), if_pos hcf]
  unfold ensureTableAndColumns
  dsimp only
  rw [hraw, if_neg hne, hlraw, hec]

/-- A successful reconciliation (`table_name` not `None`), inverted: the
returned column set is non-empty and accurate, the invariants are kept, and
only schema work is traced. -/
theorem ensure_some_ok (f : Faults) (haf : f.addColumnFaults = [])
    (suggestion : String) (attrs : List (String × String)) (st : St)
    (hacc : cacheAccurate st) (hkeys : cacheKeysOK st)
    (hnet : noEmptyTables st.conn.current) (raw : String)
    (he : (ensureTableAndColumns f st suggestion attrs).1.1 = some raw) :
    raw = sanitize_xml_name suggestion ∧
    ∃ st3 cols,
      ensureTableAndColumns f st suggestion attrs = ((some raw, cols), st3) ∧
      ¬ cols = [] ∧
      cacheAccurate st3 ∧ cacheKeysOK st3 ∧ noEmptyTables st3.conn.current ∧
      st3.conn.committed = st.conn.committed ∧
      st3.conn.current.constraints = st.conn.current.constraints ∧
      st3.conn.current.audit = st.conn.current.audit ∧
      (∃ tr, st3.trace = st.trace ++ tr ∧ ∀ s ∈ tr, isWorkStmt s = true) := by
  by_cases hs : sanitize_xml_name suggestion = ""
  · rw [ensure_empty f st suggestion attrs hs] at he
    cases he
  · cases htbl : assocFind st.conn.current.tables (sanitize_xml_name suggestion) with
    | none =>
      by_cases hcf : sanitize_xml_name suggestion ∈ f.createFaults
      · rw [ensure_create_fail f st suggestion _ attrs rfl hs hacc htbl hcf] at he
        cases he
      · obtain ⟨st3, hmain, hfind, hacc3, hkeys3, hnoem3, hcom3, hcons3, haud3,
          hoth3, htr3⟩ :=
          ensure_ok_create f suggestion _ rfl hs hcf attrs st hacc hkeys htbl
        have hr : raw = sanitize_xml_name suggestion := by
          rw [hmain] at he
          exact (Option.some_inj.mp he).symm
        subst hr
        refine ⟨rfl, st3, _, hmain, ?_, hacc3, hkeys3, hnoem3 hnet, hcom3,
          hcons3, haud3, ⟨[Stmt.createTable (sanitize_xml_name suggestion)],
            htr3, ?_⟩⟩
        · intro hx
          have : ("element_id" : String) ∈
              commonColsList ++ attrCreateCols attrs commonColsList := by
            exact List.mem_append.mpr (Or.inl (by simp [commonColsList]))
          rw [hx] at this
          cases this
        · intro s hs1
          rw [List.mem_singleton.mp hs1]
          rfl
    | some tbl =>
      have hnec : ¬ tbl.columns = [] :=
        hnet _ (assocFind_mem _ _ _ htbl)
      obtain ⟨st3, tbl3, hmain, hfind, hcols3, hrows3, hacc3, hkeys3, hnoem3,
        hcom3, hcons3, haud3, hoth3, htr3⟩ :=
        ensure_ok_existing f haf suggestion _ rfl hs attrs st tbl hacc hkeys
          htbl hnec
      have hr : raw = sanitize_xml_name suggestion := by
        rw [hmain] at he
        exact (Option.some_inj.mp he).symm
      subst hr
      refine ⟨rfl, st3, _, hmain, ?_, hacc3, hkeys3, hnoem3 hnet, hcom3,
        hcons3, haud3,
        ⟨(missingAttrCols attrs tbl.columns).map
          (fun c => Stmt.addColumn (sanitize_xml_name suggestion) c), htr3, ?_⟩⟩
      · intro hx
        exact hnec (List.append_eq_nil.mp hx).1
      · intro s hs1
        rcases List.mem_map.mp hs1 with ⟨c, _, hc⟩
        rw [← hc]
        rfl

/-! ## The writer insert, inverted -/

theorem dbInsertRow_some (db : DBState) (t : String) (row : Row) (db1 : DBState)
    (h : dbInsertRow db t row = some db1) :
    (∀ n, actualCols db1 n = actualCols db n) ∧
    db1.constraints = db.constraints ∧
    db1.audit = db.audit ∧
    (noEmptyTables db → noEmptyTables db1) := by
  unfold dbInsertRow at h
  cases hf : assocFind db.tables t with
  | none =>
    rw [hf] at h
    cases h
  | some tbl =>
    rw [hf] at h
    dsimp only at h
    by_cases hpk : pkViolation tbl row = true
    · rw [if_pos hpk] at h
      cases h
    · rw [if_neg hpk] at h
      have hdb1 : db1 = dbUpdateTable db t
          (fun tbl1 => { tbl1 with rows := tbl1.rows ++ [row] }) :=
        (Option.some_inj.mp h).symm
      subst hdb1
      refine ⟨?_, rfl, rfl, ?_⟩
      · intro n
        unfold actualCols
        rw [assocFind_dbUpdateTable]
        by_cases hn : sLower n = t
        · rw [if_pos hn]
          cases assocFind db.tables (sLower n) <;> rfl
        · rw [if_neg hn]
      · intro hnet e he
        unfold dbUpdateTable at he
        dsimp only at he
        rcases List.mem_map.mp he with ⟨nt, hnt, hee⟩
        by_cases ht : nt.1 = t
        · rw [if_pos ht] at hee
          rw [← hee]
          exact hnet nt hnt
        · rw [if_neg ht] at hee
          rw [← hee]
          exact hnet nt hnt

/-- The per-element insert loop on success: the invariants are preserved, no
transaction boundary and no delete is traced, and the accumulated
foreign-key pairs are exactly the file's pairs. -/
theorem insertLoop_ok (f : Faults) (haf : f.addColumnFaults = []) :
    ∀ (els : List Element) (st : St) (fks : List (String × String)),
      cacheAccurate st → cacheKeysOK st → noEmptyTables st.conn.current →
      ∀ stB fksB, insertLoop f els st fks = .ok (stB, fksB) →
        cacheAccurate stB ∧ cacheKeysOK stB ∧ noEmptyTables stB.conn.current ∧
        stB.conn.committed = st.conn.committed ∧
        stB.conn.current.constraints = st.conn.current.constraints ∧
        stB.conn.current.audit = st.conn.current.audit ∧
        fksB = fkPairsSpec els fks ∧
        (∃ tr, stB.trace = st.trace ++ tr ∧ ∀ s ∈ tr, isWorkStmt s = true) := by
  intro els
  induction els with
  | nil =>
    intro st fks hacc hkeys hnet stB fksB h
    cases h
    exact ⟨hacc, hkeys, hnet, rfl, rfl, rfl, rfl,
      ⟨[], by simp, fun s hs => absurd hs (by simp)⟩⟩
  | cons el rest ih =>
    intro st fks hacc hkeys hnet stB fksB h
    simp only [insertLoop] at h
    cases he : (ensureTableAndColumns f st el.table_suggestion el.attributes).1.1 with
    | none =>
      rw [he] at h
      cases h
    | some raw =>
      rw [he] at h
      obtain ⟨hr, st3, cols, hmain, hcne, hacc3, hkeys3, hnoem3, hcom3, hcons3,
        haud3, tr3, htr3, hall3⟩ :=
        ensure_some_ok f haf el.table_suggestion el.attributes st hacc hkeys
          hnet raw he
      rw [hmain] at h
      dsimp only at h
      rw [if_neg (by
        intro hx
        cases hc : cols with
        | nil => exact hcne hc
        | cons a as => rw [hc] at hx; cases hx)] at h
      by_cases hif : el.element_id ∈ f.insertFaults
      · rw [if_pos hif] at h
        cases h
      · rw [if_neg hif] at h
        cases hdbi : dbInsertRow st3.conn.current (sLower raw)
            (filterRow (writerRow el) cols) with
        | none =>
          rw [hdbi] at h
          cases h
        | some db1 =>
          rw [hdbi] at h
          dsimp only at h
          obtain ⟨hactI, hconsI, haudI, hnetI⟩ :=
            dbInsertRow_some st3.conn.current (sLower raw)
              (filterRow (writerRow el) cols) db1 hdbi
          obtain ⟨haccB, hkeysB, hnetB, hcomB, hconsB, haudB, hfksB, trB, htrB,
            hallB⟩ :=
            ih _ _
              (by
                intro e hem
                exact (hacc3 e hem).trans (hactI e.1).symm)
              (by exact hkeys3)
              (by exact hnetI hnoem3)
              stB fksB h
          refine ⟨haccB, hkeysB, hnetB, hcomB.trans hcom3,
            hconsB.trans (hconsI.trans hcons3), haudB.trans (haudI.trans haud3),
            ?_, ?_⟩
          · have hstep : fkPairsSpec (el :: rest) fks =
                fkPairsSpec rest
                  (if (optTruthy el.parent_table_suggestion &&
                        optTruthy el.parent_element_id) = true then
                    if sanitize_xml_name (el.parent_table_suggestion.getD "") = ""
                      then fks
                    else fksInsert fks (sanitize_xml_name el.table_suggestion,
                      sanitize_xml_name (el.parent_table_suggestion.getD ""))
                  else fks) := rfl
            rw [hfksB, hstep, ← hr]
          · refine ⟨tr3 ++ [Stmt.insertRow (sLower raw) el.element_id] ++ trB,
              ?_, ?_⟩
            · rw [htrB]
              dsimp only
              rw [htr3]
              simp [List.append_assoc]
            · intro s hs1
              rcases List.mem_append.mp hs1 with h1 | h1
              · rcases List.mem_append.mp h1 with h2 | h2
                · exact hall3 s h2
                · rw [List.mem_singleton.mp h2]
                  rfl
              · exact hallB s h1


/-! ## The overwrite phase on success paths, inverted -/

theorem dbDeleteRows_committedFree (db : DBState) (t u : String)
    (h : noEmptyTables db) : noEmptyTables (dbDeleteRows db t u).1 := by
  unfold dbDeleteRows
  cases hf : assocFind db.tables t with
  | none => exact h
  | some tbl =>
    dsimp only
    intro e he
    unfold dbUpdateTable at he
    dsimp only at he
    rcases List.mem_map.mp he with ⟨nt, hnt, hee⟩
    by_cases ht : nt.1 = t
    · rw [if_pos ht] at hee
      rw [← hee]
      exact h nt hnt
    · rw [if_neg ht] at hee
      rw [← hee]
      exact h nt hnt

theorem deleteLoop_inv (f : Faults) (u : String) :
    ∀ ns st st1, deleteLoop f u ns st = .ok st1 →
      cacheAccurate st → cacheKeysOK st → noEmptyTables st.conn.current →
      cacheAccurate st1 ∧ cacheKeysOK st1 ∧ noEmptyTables st1.conn.current ∧
      st1.conn.committed = st.conn.committed ∧
      st1.conn.current.constraints = st.conn.current.constraints ∧
      st1.conn.current.audit = st.conn.current.audit := by
  intro ns
  induction ns with
  | nil =>
    intro st st1 h hacc hkeys hnet
    cases h
    exact ⟨hacc, hkeys, hnet, rfl, rfl, rfl⟩
  | cons n rest ih =>
    intro st st1 h hacc hkeys hnet
    simp only [deleteLoop] at h
    have hacc1 := getTableColumns_cacheAccurate st n hacc
    have hkeys1 := getTableColumns_cacheKeysOK st n hkeys
    have hconn1 := getTableColumns_conn st n
    by_cases hp : "pcr_uuid_context" ∈ (getTableColumns st n).1
    · rw [if_pos hp] at h
      by_cases hfa : (n, u) ∈ f.deleteFaults
      · rw [if_pos hfa] at h
        cases h
      · rw [if_neg hfa] at h
        obtain ⟨ha, hk, hn, hc, hcs, hau⟩ := ih _ _ h
          (by
            intro e he
            rw [hacc1 e he]
            show actualCols _ e.1 = actualCols _ e.1
            rw [dbDeleteRows_actualCols, hconn1])
          hkeys1
          (by
            show noEmptyTables (dbDeleteRows _ n u).1
            exact dbDeleteRows_committedFree _ n u (by rw [hconn1]; exact hnet))
        refine ⟨ha, hk, hn, hc.trans (by rw [hconn1]), ?_, ?_⟩
        · rw [hcs]
          show (dbDeleteRows _ n u).1.constraints = _
          rw [dbDeleteRows_constraints, hconn1]
        · rw [hau]
          show (dbDeleteRows _ n u).1.audit = _
          rw [dbDeleteRows_audit, hconn1]
    · rw [if_neg hp] at h
      obtain ⟨ha, hk, hn, hc, hcs, hau⟩ := ih _ _ h hacc1 hkeys1
        (by rw [hconn1]; exact hnet)
      exact ⟨ha, hk, hn, hc.trans (by rw [hconn1]),
        hcs.trans (by rw [hconn1]), hau.trans (by rw [hconn1])⟩

theorem deleteExisting_inv (f : Faults) (p : Option String) :
    ∀ st st1, deleteExistingPcrData f st p = .ok st1 →
      cacheAccurate st → cacheKeysOK st → noEmptyTables st.conn.current →
      cacheAccurate st1 ∧ cacheKeysOK st1 ∧ noEmptyTables st1.conn.current ∧
      st1.conn.committed = st.conn.committed ∧
      st1.conn.current.constraints = st.conn.current.constraints ∧
      st1.conn.current.audit = st.conn.current.audit := by
  intro st st1 h hacc hkeys hnet
  unfold deleteExistingPcrData at h
  by_cases hb : optTruthy p = false
  · rw [if_pos hb] at h
    cases h
    exact ⟨hacc, hkeys, hnet, rfl, rfl, rfl⟩
  · rw [if_neg hb] at h
    cases p with
    | none =>
      cases h
      exact ⟨hacc, hkeys, hnet, rfl, rfl, rfl⟩
    | some u =>
      dsimp only at h
      by_cases he : f.enumTablesFault = true
      · rw [if_pos he] at h
        cases h
      · rw [if_neg he] at h
        exact deleteLoop_inv f u _ st st1 h hacc hkeys hnet

theorem deletePhase_inv (f : Faults) :
    ∀ us st st1, deletePhase f us st = .ok st1 →
      cacheAccurate st → cacheKeysOK st → noEmptyTables st.conn.current →
      cacheAccurate st1 ∧ cacheKeysOK st1 ∧ noEmptyTables st1.conn.current ∧
      st1.conn.committed = st.conn.committed ∧
      st1.conn.current.constraints = st.conn.current.constraints ∧
      st1.conn.current.audit = st.conn.current.audit := by
  intro us
  induction us with
  | nil =>
    intro st st1 h hacc hkeys hnet
    cases h
    exact ⟨hacc, hkeys, hnet, rfl, rfl, rfl⟩
  | cons u rest ih =>
    intro st st1 h hacc hkeys hnet
    simp only [deletePhase] at h
    cases hd : deleteExistingPcrData f st (some u) with
    | error sa =>
      rw [hd] at h
      cases h
    | ok sa =>
      rw [hd] at h
      obtain ⟨ha1, hk1, hn1, hc1, hcs1, hau1⟩ :=
        deleteExisting_inv f (some u) st sa hd hacc hkeys hnet
      obtain ⟨ha, hk, hn, hc, hcs, hau⟩ := ih sa st1 h ha1 hk1 hn1
      exact ⟨ha, hk, hn, hc.trans hc1, hcs.trans hcs1, hau.trans hau1⟩

/-! ## The foreign-key planner, characterized -/

theorem dbAddConstraint_some (db : DBState) (cst : FKConstraint)
    (db1 : DBState) (h : dbAddConstraint db cst = some db1) :
    db1 = { db with constraints := db.constraints ++ [cst] } := by
  unfold dbAddConstraint at h
  cases hc : assocFind db.tables cst.childTable with
  | none =>
    rw [hc] at h
    cases h
  | some tc =>
    rw [hc] at h
    cases hp : assocFind db.tables cst.parentTable with
    | none =>
      rw [hp] at h
      cases h
    | some tp =>
      rw [hp] at h
      dsimp only at h
      by_cases hany : db.constraints.any
          (fun c => c.name == cst.name && c.childTable == cst.childTable) = true
      · rw [if_pos hany] at h
        cases h
      · rw [if_neg hany] at h
        exact (Option.some_inj.mp h).symm

theorem fkPhase_ok (f : Faults) :
    ∀ (prs : List (String × String)) (st : St) (stB : St),
      wfConstraints st.conn.current.constraints →
      (∀ pr ∈ prs, ∀ cst ∈ st.conn.current.constraints,
        ¬(cst.name = fkConstraintName pr.1 pr.2 ∧ cst.childTable = sLower pr.1)) →
      (prs.map (fun pr => (fkConstraintName pr.1 pr.2, sLower pr.1))).Nodup →
      fkPhase f prs st = .ok stB →
      stB.conn.current.constraints =
        st.conn.current.constraints ++
          prs.map (fun pr => plannerConstraint pr.1 pr.2) ∧
      stB.conn.committed = st.conn.committed ∧
      stB.conn.current.tables = st.conn.current.tables ∧
      stB.conn.current.audit = st.conn.current.audit ∧
      stB.cache = st.cache ∧
      (∃ tr, stB.trace = st.trace ++ tr ∧ ∀ s ∈ tr, isWorkStmt s = true) := by
  intro prs
  induction prs with
  | nil =>
    intro st stB hwf hnopre hdist h
    cases h
    exact ⟨by simp, rfl, rfl, rfl, rfl,
      ⟨[], by simp, fun s hs => absurd hs (by simp)⟩⟩
  | cons pr rest ih =>
    intro st stB hwf hnopre hdist h
    obtain ⟨c, p⟩ := pr
    simp only [fkPhase] at h
    by_cases hchk : (sLower c, sLower p) ∈ f.fkCheckFaults
    · rw [if_pos hchk] at h
      cases h
    · rw [if_neg hchk] at h
      have hfil : List.filter
          (fun cst => cst.name == fkConstraintName c p && cst.childTable == sLower c)
          st.conn.current.constraints = [] := by
        rw [List.filter_eq_nil_iff]
        intro cst hcst hbool
        simp only [Bool.and_eq_true, beq_iff_eq] at hbool
        exact hnopre (c, p) (List.mem_cons_self _ _) cst hcst hbool
      simp only [emit] at h
      rw [hfil] at h
      rw [if_pos (show (List.isEmpty ([] : List FKConstraint)) = true from rfl)] at h
      by_cases halt : (sLower c, sLower p) ∈ f.fkAlterFaults
      · rw [if_pos halt] at h
        cases h
      · rw [if_neg halt] at h
        cases hadd : dbAddConstraint st.conn.current (plannerConstraint c p) with
        | none =>
          rw [hadd] at h
          cases h
        | some db1 =>
          rw [hadd] at h
          dsimp only at h
          have hdb1 := dbAddConstraint_some _ _ _ hadd
          subst hdb1
          have hhead : ¬ (fkConstraintName c p, sLower c) ∈
              rest.map (fun pr => (fkConstraintName pr.1 pr.2, sLower pr.1)) :=
            (List.nodup_cons.mp hdist).1
          obtain ⟨hcsB, hcomB, htabB, haudB, hcacB, trB, htrB, hallB⟩ :=
            ih _ stB
              (by
                show ((st.conn.current.constraints ++ [plannerConstraint c p]).map
                  (fun c => (c.name, c.childTable))).Nodup
                rw [List.map_append]
                rw [List.nodup_append]
                refine ⟨hwf, List.nodup_singleton _, ?_⟩
                intro x hx hx2
                rcases List.mem_map.mp hx with ⟨cst, hcst, hcsteq⟩
                have hxval : x = (fkConstraintName c p, sLower c) := by
                  rcases List.mem_map.mp hx2 with ⟨y, hy, hyeq⟩
                  rw [List.mem_singleton.mp hy] at hyeq
                  rw [← hyeq]
                  rfl
                apply hnopre (c, p) (List.mem_cons_self _ _) cst hcst
                rw [hxval] at hcsteq
                exact ⟨congrArg Prod.fst hcsteq, congrArg Prod.snd hcsteq⟩)
              (by
                intro pr2 hpr2 cst hcst hbad
                rcases List.mem_append.mp hcst with h1 | h1
                · exact hnopre pr2 (List.mem_cons_of_mem _ hpr2) cst h1 hbad
                · rw [List.mem_singleton.mp h1] at hbad
                  apply hhead
                  rw [show (fkConstraintName c p, sLower c) =
                    (fkConstraintName pr2.1 pr2.2, sLower pr2.1) from by
                      rw [← hbad.1, ← hbad.2]
                      rfl]
                  exact List.mem_map.mpr ⟨pr2, hpr2, rfl⟩)
              (List.nodup_cons.mp hdist).2
              h
          refine ⟨?_, hcomB, htabB, haudB, hcacB, ?_⟩
          · rw [hcsB]
            show (st.conn.current.constraints ++ [plannerConstraint c p]) ++ _ = _
            rw [List.append_assoc, List.singleton_append, List.map_cons]
          · refine ⟨[Stmt.fkCheck (sLower c) (fkConstraintName c p),
              Stmt.fkAdd (sLower c) (fkConstraintName c p)] ++ trB, ?_, ?_⟩
            · rw [htrB]
              show (st.trace ++ [Stmt.fkCheck (sLower c) (fkConstraintName c p)])
                  ++ [Stmt.fkAdd (sLower c) (fkConstraintName c p)] ++ trB = _
              simp [List.append_assoc]
            · intro s hs
              rcases List.mem_append.mp hs with h1 | h1
              · rcases List.mem_cons.mp h1 with h2 | h2
                · rw [h2]
                  rfl
                · rw [List.mem_singleton.mp h2]
                  rfl
              · exact hallB s h1

/-! ## The pipeline, decomposed -/

theorem runPhases_inv (f : Faults) (elements : List Element)
    (uuids : List String) (st : St) (stB : St)
    (h : runPhases f elements uuids st = .ok stB) :
    ∃ st1 st2 fks, deletePhase f uuids st = .ok st1 ∧
      insertLoop f elements st1 [] = .ok (st2, fks) ∧
      fkPhase f fks st2 = .ok stB := by
  unfold runPhases at h
  cases hd : deletePhase f uuids st with
  | error sa =>
    rw [hd] at h
    cases h
  | ok st1 =>
    rw [hd] at h
    dsimp only at h
    cases hi : insertLoop f elements st1 [] with
    | error sb =>
      rw [hi] at h
      cases h
    | ok pr =>
      obtain ⟨st2, fks⟩ := pr
      rw [hi] at h
      dsimp only at h
      exact ⟨st1, st2, fks, rfl, hi, h⟩

theorem collectUuids_ne_empty :
    ∀ (els : List Element) (acc : List String),
      (∀ u ∈ acc, ¬ u = "") →
      ∀ u ∈ collectUuids els acc, ¬ u = "" := by
  intro els
  induction els with
  | nil =>
    intro acc hacc u hu
    exact hacc u hu
  | cons el rest ih =>
    intro acc hacc u hu
    unfold collectUuids at hu
    cases hel : el.pcr_uuid_context with
    | none =>
      rw [hel] at hu
      exact ih acc hacc u hu
    | some v =>
      rw [hel] at hu
      dsimp only at hu
      by_cases hv : v = "" ∨ v ∈ acc
      · rw [if_pos hv] at hu
        exact ih acc hacc u hu
      · rw [if_neg hv] at hu
        refine ih (acc ++ [v]) ?_ u hu
        intro w hw
        rcases List.mem_append.mp hw with h1 | h1
        · exact hacc w h1
        · rw [List.mem_singleton.mp h1]
          intro hveq
          exact hv (Or.inl hveq)

theorem processXmlFile_run (f : Faults) (auditFault : Bool) (st : St) (fs : FS)
    (name : String) (elements : List Element) (ts : String)
    (hne : elements.isEmpty = false) :
    processXmlFile f auditFault st fs name elements ts =
      match runPhases f elements (collectUuids elements []) st with
      | .error st1 =>
        (false,
         clearCache (logProcessedFile auditFault
           { st1 with
             conn := rollbackConn st1.conn,
             trace := st1.trace ++ [.rollback] } name "Error_Staging_Tx_PG_V4").2,
         moveToError name ts fs)
      | .ok st1 =>
        (true,
         clearCache (logProcessedFile auditFault
           { st1 with
             conn := { st1.conn with committed := st1.conn.current },
             trace := st1.trace ++ [.commit] } name "Staged_Dynamic_PG_V4").2,
         archiveFile name fs) := by
  unfold processXmlFile
  rw [if_neg (by
    intro hx
    rw [hne] at hx
    exact Bool.false_ne_true hx)]


/-! ## Claim C6 -/

/-- C6: every successful `ensure_table_and_columns` call returns a column set
containing the five common columns and, for every attribute, a column named by
the sanitized lowercased attribute name.  A fresh table is created with
exactly the commons plus one column per sanitized attribute name not
colliding with a common name (or an earlier attribute), and an existing table
gains exactly the missing attribute columns via `ALTER TABLE ADD COLUMN`. -/
theorem reconciler_columns_cover_commons_and_attrs
    (f : Faults) (haf : f.addColumnFaults = [])
    (suggestion : String) (attrs : List (String × String)) (st : St)
    (hacc : cacheAccurate st) (hkeys : cacheKeysOK st)
    (hnet : noEmptyTables st.conn.current)
    (hcommons : ∀ e ∈ st.conn.current.tables, ∀ c ∈ commonColsList,
      c ∈ e.2.columns)
    (raw : String) (hraw : sanitize_xml_name suggestion = raw)
    (hne : ¬ raw = "") (hcf : raw ∉ f.createFaults) :
    ∃ st3 cols,
      ensureTableAndColumns f st suggestion attrs = ((some raw, cols), st3) ∧
      (∀ c ∈ commonColsList, c ∈ cols) ∧
      (∀ kv ∈ attrs, sLower (sanitize_xml_name kv.1) ∈ cols) ∧
      (match assocFind st.conn.current.tables raw with
       | none =>
         cols = commonColsList ++ attrCreateCols attrs commonColsList ∧
         (∃ tbl3, assocFind st3.conn.current.tables raw = some tbl3 ∧
           tbl3.columns = cols ∧ tbl3.rows = []) ∧
         st3.trace = st.trace ++ [Stmt.createTable raw]
       | some tbl =>
         cols = tbl.columns ++ missingAttrCols attrs tbl.columns ∧
         (∃ tbl3, assocFind st3.conn.current.tables raw = some tbl3 ∧
           tbl3.columns = cols ∧ tbl3.rows = tbl.rows) ∧
         st3.trace = st.trace ++ (missingAttrCols attrs tbl.columns).map
           (fun c => Stmt.addColumn raw c)) := by
  cases htbl : assocFind st.conn.current.tables raw with
  | none =>
    obtain ⟨st3, hmain, hfind, hacc3, hkeys3, hnoem3, hcom3, hcons3, haud3,
      hoth3, htr3⟩ :=
      ensure_ok_create f suggestion raw hraw hne hcf attrs st hacc hkeys htbl
    refine ⟨st3, _, hmain, ?_, ?_, ?_⟩
    · intro c hc
      exact List.mem_append.mpr (Or.inl hc)
    · intro kv hkv
      rcases attrCreateCols_mem attrs commonColsList kv hkv with h1 | h1
      · exact List.mem_append.mpr (Or.inl h1)
      · exact List.mem_append.mpr (Or.inr h1)
    · exact ⟨rfl, ⟨_, hfind, rfl, rfl⟩, htr3⟩
  | some tbl =>
    have hnec : ¬ tbl.columns = [] := hnet _ (assocFind_mem _ _ _ htbl)
    obtain ⟨st3, tbl3, hmain, hfind, hcols3, hrows3, hacc3, hkeys3, hnoem3,
      hcom3, hcons3, haud3, hoth3, htr3⟩ :=
      ensure_ok_existing f haf suggestion raw hraw hne attrs st tbl hacc hkeys
        htbl hnec
    refine ⟨st3, _, hmain, ?_, ?_, ?_⟩
    · intro c hc
      exact List.mem_append.mpr
        (Or.inl (hcommons _ (assocFind_mem _ _ _ htbl) c hc))
    · intro kv hkv
      rcases missingAttrCols_covers attrs tbl.columns kv hkv with h1 | h1 | h1
      · exact List.mem_append.mpr (Or.inl h1)
      · exact List.mem_append.mpr
          (Or.inl (hcommons _ (assocFind_mem _ _ _ htbl) _ h1))
      · exact List.mem_append.mpr (Or.inr h1)
    · exact ⟨rfl, ⟨tbl3, hfind, hcols3, hrows3⟩, htr3⟩

theorem reconciler_columns_witness :
    ∃ st3 cols,
      ensureTableAndColumns noFaults emptySt "T1" [("Attr", "v")] =
        ((some "t1", cols), st3) ∧
      (∀ c ∈ commonColsList, c ∈ cols) ∧
      (∀ kv ∈ [("Attr", "v")], sLower (sanitize_xml_name kv.1) ∈ cols) := by
  obtain ⟨st3, cols, h1, h2, h3, _⟩ :=
    reconciler_columns_cover_commons_and_attrs noFaults rfl "T1"
      [("Attr", "v")] emptySt (by decide) (by decide) (by decide) (by decide)
      "t1" (by decide) (by decide) (by decide)
  exact ⟨st3, cols, h1, h2, h3⟩

/-! ## Claim C2 -/

/-- C2: the overwrite phase runs before any insert of the file, inside the
same transaction.  (a) With a working driver it succeeds, the insert loop
starts from its final state, every row of a dynamic `pcr_uuid_context` table
matching one of the uuids of the file is gone, nothing is committed, and only
`DELETE` statements were traced.  (b) The insert loop commits nothing and
deletes nothing.  (c) A driver error while deleting propagates: the file is
reported failed and quarantined. -/
theorem overwrite_deletes_before_inserts_and_propagates
    (f : Faults) (elements : List Element) (st : St)
    (hacc : cacheAccurate st) :
    (f.enumTablesFault = false → f.deleteFaults = [] →
      ∃ st1, deletePhase f (collectUuids elements []) st = .ok st1 ∧
        runPhases f elements (collectUuids elements []) st =
          (match insertLoop f elements st1 [] with
           | .error st2 => .error st2
           | .ok (st2, fks) => fkPhase f fks st2) ∧
        (∀ n tbl1, assocFind st1.conn.current.tables n = some tbl1 →
          ∀ u ∈ collectUuids elements [],
            "pcr_uuid_context" ∈ actualCols st.conn.current (sanitize_xml_name n) →
            dynTableFilter n = true →
            ∀ r ∈ tbl1.rows, ¬ rowPcr r = some u) ∧
        st1.conn.committed = st.conn.committed ∧
        (∃ tr, st1.trace = st.trace ++ tr ∧ ∀ s ∈ tr, isDeleteStmt s = true)) ∧
    (f.addColumnFaults = [] →
      ∀ stA fks stB fksB, cacheAccurate stA → cacheKeysOK stA →
        noEmptyTables stA.conn.current →
        insertLoop f elements stA fks = .ok (stB, fksB) →
        ∃ tr, stB.trace = stA.trace ++ tr ∧ ∀ s ∈ tr, isWorkStmt s = true) ∧
    (∀ st1 (auditFault : Bool) (fs : FS) (name ts : String),
      elements.isEmpty = false →
      deletePhase f (collectUuids elements []) st = .error st1 →
      (processXmlFile f auditFault st fs name elements ts).1 = false ∧
      (processXmlFile f auditFault st fs name elements ts).2.2 =
        moveToError name ts fs) := by
  refine ⟨?_, ?_, ?_⟩
  · intro henum hdf
    obtain ⟨st1, hdel, hacc1, hcom1, hcons1, hact1, hfind1⟩ :=
      deletePhase_ok f (collectUuids elements []) henum hdf st hacc
        (collectUuids_ne_empty elements [] (fun u hu => absurd hu (by simp)))
    obtain ⟨tr, htr, hall⟩ := deletePhase_trace f (collectUuids elements []) st
      st1 hdel
    refine ⟨st1, hdel, ?_, ?_, hcom1, ⟨tr, htr, hall⟩⟩
    · unfold runPhases
      rw [hdel]
    · intro n tbl1 hf1 u hu hcols hdyn r hr
      obtain ⟨tbl0, _, _, _, hclean⟩ := hfind1 n tbl1 hf1
      exact hclean u hu hcols hdyn r hr
  · intro haf stA fks stB fksB haccA hkeysA hnetA hrun
    obtain ⟨_, _, _, _, _, _, _, tr, htr, hall⟩ :=
      insertLoop_ok f haf elements stA fks haccA hkeysA hnetA stB fksB hrun
    exact ⟨tr, htr, hall⟩
  · intro st1 auditFault fs name ts hne hdel
    have hrp : runPhases f elements (collectUuids elements []) st =
        .error st1 := by
      unfold runPhases
      rw [hdel]
    rw [processXmlFile_run f auditFault st fs name elements ts hne, hrp]
    exact ⟨rfl, rfl⟩

theorem overwrite_deletes_witness :
    ∃ st1, deletePhase noFaults (collectUuids [c1e1] []) c1st = .ok st1 ∧
      runPhases noFaults [c1e1] (collectUuids [c1e1] []) c1st =
        (match insertLoop noFaults [c1e1] st1 [] with
         | .error st2 => .error st2
         | .ok (st2, fks) => fkPhase noFaults fks st2) ∧
      (∀ n tbl1, assocFind st1.conn.current.tables n = some tbl1 →
        ∀ u ∈ collectUuids [c1e1] [],
          "pcr_uuid_context" ∈
              actualCols c1st.conn.current (sanitize_xml_name n) →
          dynTableFilter n = true →
          ∀ r ∈ tbl1.rows, ¬ rowPcr r = some u) ∧
      st1.conn.committed = c1st.conn.committed ∧
      (∃ tr, st1.trace = c1st.trace ++ tr ∧
        ∀ s ∈ tr, isDeleteStmt s = true) :=
  (overwrite_deletes_before_inserts_and_propagates noFaults [c1e1] c1st
    (by decide)).1 rfl rfl


/-! ## Claim C5 -/

theorem filter_planner_singleton :
    ∀ (l : List (String × String)) (pr : String × String), pr ∈ l →
      ((l.map (fun q => (fkConstraintName q.1 q.2, sLower q.1))).Nodup) →
      (l.map (fun q => plannerConstraint q.1 q.2)).filter
        (fun cst => cst.name == fkConstraintName pr.1 pr.2 &&
          cst.childTable == sLower pr.1) = [plannerConstraint pr.1 pr.2] := by
  intro l
  induction l with
  | nil =>
    intro pr hpr _
    cases hpr
  | cons q rest ih =>
    intro pr hpr hnd
    simp only [List.map_cons, List.nodup_cons] at hnd
    rw [List.map_cons, List.filter_cons]
    by_cases hk : (fkConstraintName q.1 q.2, sLower q.1) =
        (fkConstraintName pr.1 pr.2, sLower pr.1)
    · have h1 : fkConstraintName q.1 q.2 = fkConstraintName pr.1 pr.2 :=
        congrArg Prod.fst hk
      have h2 : sLower q.1 = sLower pr.1 := congrArg Prod.snd hk
      have hqpr : pr = q := by
        rcases List.mem_cons.mp hpr with h3 | h3
        · exact h3
        · exact absurd (hk ▸ List.mem_map.mpr ⟨pr, h3, rfl⟩) hnd.1
      rw [if_pos (by
        show (fkConstraintName q.1 q.2 == fkConstraintName pr.1 pr.2 &&
          (sLower q.1 == sLower pr.1)) = true
        rw [h1, h2]
        simp)]
      rw [hqpr]
      rw [List.filter_eq_nil_iff.mpr (by
        intro cst hcst hbool
        rcases List.mem_map.mp hcst with ⟨y, hy, hyeq⟩
        rw [← hyeq] at hbool
        have hb2 : (fkConstraintName y.1 y.2 == fkConstraintName q.1 q.2 &&
            (sLower y.1 == sLower q.1)) = true := hbool
        simp only [Bool.and_eq_true, beq_iff_eq] at hb2
        apply hnd.1
        rw [show (fkConstraintName q.1 q.2, sLower q.1) =
          (fkConstraintName y.1 y.2, sLower y.1) from by rw [hb2.1, hb2.2]]
        exact List.mem_map.mpr ⟨y, hy, rfl⟩)]
    · rw [if_neg (by
        intro hbool
        have hb2 : (fkConstraintName q.1 q.2 == fkConstraintName pr.1 pr.2 &&
            (sLower q.1 == sLower pr.1)) = true := hbool
        simp only [Bool.and_eq_true, beq_iff_eq] at hb2
        exact hk (by rw [hb2.1, hb2.2]))]
      have hpr2 : pr ∈ rest := by
        rcases List.mem_cons.mp hpr with h3 | h3
        · exact absurd (by rw [h3]) hk
        · exact h3
      exact ih pr hpr2 hnd.2

/-- C5 (amended): after a successful ingest, provided the accumulated pairs
have pairwise distinct `(constraint name, child table)` keys and no
pre-existing constraint matches one of them, exactly one foreign-key
constraint with the computed planner name exists per pair, on
`child.parent_element_id` referencing `parent.element_id` with
`ON DELETE CASCADE`.  (Without the distinctness hypothesis the invariant
fails: the 6-hex MD5 prefix can collide.) -/
theorem fk_exactly_one_when_pair_names_distinct
    (f : Faults) (haf : f.addColumnFaults = [])
    (elements : List Element) (st : St)
    (hacc : cacheAccurate st) (hkeys : cacheKeysOK st)
    (hnet : noEmptyTables st.conn.current)
    (hwf : wfConstraints st.conn.current.constraints)
    (hnopre : ∀ pr ∈ fkPairsSpec elements [],
      ∀ cst ∈ st.conn.current.constraints,
      ¬(cst.name = fkConstraintName pr.1 pr.2 ∧ cst.childTable = sLower pr.1))
    (hdist : ((fkPairsSpec elements []).map
      (fun pr => (fkConstraintName pr.1 pr.2, sLower pr.1))).Nodup)
    (auditFault : Bool) (fs : FS) (name ts : String)
    (hne : elements.isEmpty = false)
    (hsucc : (processXmlFile f auditFault st fs name elements ts).1 = true) :
    ∀ pr ∈ fkPairsSpec elements [],
      ((processXmlFile f auditFault st fs name elements
          ts).2.1.conn.committed.constraints.filter
        (fun cst => cst.name == fkConstraintName pr.1 pr.2 &&
          cst.childTable == sLower pr.1)) =
      [plannerConstraint pr.1 pr.2] := by
  intro pr hpr
  rw [processXmlFile_run f auditFault st fs name elements ts hne] at hsucc ⊢
  revert hsucc
  cases hrp : runPhases f elements (collectUuids elements []) st with
  | error st1 =>
    intro hsucc
    dsimp only at hsucc
    cases hsucc
  | ok st1 =>
    intro hsucc
    obtain ⟨stD, st2, fks, hdel, hins, hfk⟩ :=
      runPhases_inv f elements (collectUuids elements []) st st1 hrp
    obtain ⟨haccD, hkeysD, hnetD, hcomD, hconsD, haudD⟩ :=
      deletePhase_inv f (collectUuids elements []) st stD hdel hacc hkeys hnet
    obtain ⟨hacc2, hkeys2, hnet2, hcom2, hcons2, haud2, hfks, _⟩ :=
      insertLoop_ok f haf elements stD [] haccD hkeysD hnetD st2 fks hins
    have hcons2st : st2.conn.current.constraints = st.conn.current.constraints :=
      hcons2.trans hconsD
    obtain ⟨hcs1, _, _, _, _, _⟩ :=
      fkPhase_ok f fks st2 st1
        (by rw [wfConstraints, hcons2st]; exact hwf)
        (by
          rw [hcons2st]
          intro pr2 hpr2
          exact hnopre pr2 (by rw [← hfks]; exact hpr2))
        (by rw [hfks]; exact hdist)
        hfk
    have hfinal : (clearCache (logProcessedFile auditFault
        { st1 with
          conn := { st1.conn with committed := st1.conn.current },
          trace := st1.trace ++ [.commit] } name
        "Staged_Dynamic_PG_V4").2).conn.committed.constraints =
        st1.conn.current.constraints := by
      cases auditFault <;> rfl
    show (clearCache (logProcessedFile auditFault _ name
        "Staged_Dynamic_PG_V4").2).conn.committed.constraints.filter _ = _
    rw [hfinal, hcs1, hcons2st, hfks]
    rw [List.filter_append]
    rw [List.filter_eq_nil_iff.mpr (by
      intro cst hcst hbool
      simp only [Bool.and_eq_true, beq_iff_eq] at hbool
      exact hnopre pr hpr cst hcst hbool)]
    rw [List.nil_append]
    exact filter_planner_singleton (fkPairsSpec elements []) pr hpr hdist

set_option maxRecDepth 4000000 in
/-- The MD5-prefix collision defeating the claim as stated: both pairs of
`c5elements` compute the same constraint name, the ingest succeeds, yet no
constraint referencing the second parent table exists afterwards. -/
theorem fk_not_exactly_one_on_name_collision :
    fkConstraintName c5child c5p1 = fkConstraintName c5child c5p2 ∧
    (c5child, c5p2) ∈ fkPairsSpec c5elements [] ∧
    (processXmlFile noFaults false emptySt emptyFS "x.xml" c5elements
      "ts").1 = true ∧
    ((processXmlFile noFaults false emptySt emptyFS "x.xml" c5elements
        "ts").2.1.conn.committed.constraints.filter
      (fun cst => cst.childTable == sLower c5child &&
        cst.parentTable == sLower c5p2)).length = 0 :=
  ⟨by decide, by decide, by decide, by decide⟩

theorem fk_exactly_one_witness :
    ((processXmlFile noFaults false emptySt emptyFS "w.xml" c5wels
        "ts").2.1.conn.committed.constraints.filter
      (fun cst => cst.name == fkConstraintName "c" "p" &&
        cst.childTable == sLower "c")) = [plannerConstraint "c" "p"] :=
  fk_exactly_one_when_pair_names_distinct noFaults rfl c5wels emptySt
    (by decide) (by decide) (by decide) (by decide) (by decide) (by decide)
    false emptyFS "w.xml" "ts" (by decide) (by decide) ("c", "p") (by decide)


/-! ## Claim C1 -/

set_option maxRecDepth 4000000 in
/-- C1 fails in the code: with a pre-ingested row of the same PCR and a
driver error on the `ALTER TABLE t ADD COLUMN a` needed by the second
element, `ensure_table_and_columns` catches the error, rolls the transaction
back mid-file and continues.  The file is reported successfully staged, yet
the committed table holds the stale pre-existing row, has lost the insert of
the first element, and holds the row of the second element: neither the per-file
atomicity nor the single-transaction discipline survives. -/
theorem atomicity_broken_by_swallowed_alter_error :
    (processXmlFile c1faults false c1st emptyFS "f.xml" [c1e1, c1e2]
      "ts").1 = true ∧
    ((assocFind (processXmlFile c1faults false c1st emptyFS "f.xml"
        [c1e1, c1e2] "ts").2.1.conn.committed.tables "t").map
      (fun tbl =>
        (tbl.rows.any (fun r => assocFind r "element_id" == some (some "old1")),
         tbl.rows.any (fun r => assocFind r "element_id" == some (some "e1")),
         tbl.rows.any (fun r => assocFind r "element_id" == some (some "e2"))))) =
      some (true, false, true) :=
  ⟨by decide, by decide⟩

/-! ## Claim C3 -/

/-- C3 (amended): every DB error signaled by the Overwriter, Writer or
Planner propagates out of `runPhases` to the pipeline, which alone rolls
back, writes the audit row and quarantines the file; a Reconciler `CREATE`
failure is caught inside the Reconciler and surfaces through its `None`
result, on which the pipeline raises a substitute `psycopg2.Error` (line
384) that aborts the element loop into the same rollback, audit
(`Error_Staging_Tx_PG_V4`) and quarantine path.  (Reconciler `ALTER`
failures by contrast are swallowed and processing continues: see the
counterexample.) -/
theorem phase_errors_reach_pipeline
    (f : Faults) (st : St) (fs : FS) (name ts : String)
    (elements : List Element) (auditFault : Bool) :
    (∀ stE, elements.isEmpty = false →
      runPhases f elements (collectUuids elements []) st = .error stE →
      processXmlFile f auditFault st fs name elements ts =
        (false,
         clearCache (logProcessedFile auditFault
           { stE with
             conn := rollbackConn stE.conn,
             trace := stE.trace ++ [.rollback] } name
           "Error_Staging_Tx_PG_V4").2,
         moveToError name ts fs)) ∧
    (∀ (el : Element) (rest : List Element) (stI : St)
        (fks : List (String × String)),
      (ensureTableAndColumns f stI el.table_suggestion el.attributes).1.1 = none →
      insertLoop f (el :: rest) stI fks =
        .error (ensureTableAndColumns f stI el.table_suggestion el.attributes).2) := by
  refine ⟨?_, ?_⟩
  · intro stE hne herr
    rw [processXmlFile_run f auditFault st fs name elements ts hne, herr]
  · intro el rest stI fks he
    simp only [insertLoop]
    rw [he]

theorem phase_errors_witness :
    processXmlFile c3wfaults false c3wst emptyFS "h.xml" [c3wel] "ts" =
      (false,
       clearCache (logProcessedFile false
         { exSt (runPhases c3wfaults [c3wel] (collectUuids [c3wel] []) c3wst) with
           conn := rollbackConn
             (exSt (runPhases c3wfaults [c3wel] (collectUuids [c3wel] [])
               c3wst)).conn,
           trace := (exSt (runPhases c3wfaults [c3wel] (collectUuids [c3wel] [])
             c3wst)).trace ++ [.rollback] } "h.xml"
         "Error_Staging_Tx_PG_V4").2,
       moveToError "h.xml" "ts" emptyFS) :=
  (phase_errors_reach_pipeline c3wfaults c3wst emptyFS "h.xml" "ts" [c3wel]
      false).1
    (exSt (runPhases c3wfaults [c3wel] (collectUuids [c3wel] []) c3wst))
    (by decide) (by rfl)

set_option maxRecDepth 4000000 in
/-- The Reconciler swallows a DB error: with the driver raising on
`ALTER TABLE u ADD COLUMN b`, the file is still reported successfully staged
(and the trace shows the mid-transaction rollback the component issued). -/
theorem reconciler_swallows_alter_error :
    (processXmlFile c3faults false c3st emptyFS "g.xml" [c3el] "ts").1 = true ∧
    Stmt.rollback ∈
      (processXmlFile c3faults false c3st emptyFS "g.xml" [c3el]
        "ts").2.1.trace :=
  ⟨by decide, by decide⟩

end NemsisIngest
